import Mathlib

/-!
# Verification of the velocity metrics pipeline

Shallow embedding of the core of the `velocity` repository:

* `src/cli/src/extractors/ai-detection.ts` — the AI co-author classifier
  (`identifyAITool`, `detectAICoAuthors`, `hasAIIndicators`, bot exclusion),
* `src/cli/src/extractors/prs.ts` — the PR normalizer (`transformPR`),
* `src/cli/src/commands/metrics.ts` — the metrics calculator
  (`calculateAllMetrics`, `calculateAIMetrics`, `calculateStats`,
  `calculateSizeDistribution`),
* `src/cli/src/utils/date.ts` — `diffInHours`, `formatDuration`.

Modelling conventions:

* JavaScript strings are `String`; case-insensitive regular expressions are
  evaluated on ASCII-lowercased character lists (`Char.toLower`), which agrees
  with `toLowerCase`/the `i` flag on the ASCII pattern literals used by the
  source.  `\w` is `[A-Za-z0-9_]` (`isWordChar`), `\s` is modelled by
  `Char.isWhitespace` (the source strings are ASCII).
* Each concrete regular expression of the source is embedded as an executable
  matcher over `List Char` (substring, word-boundary, `\s*`-gap, anchored
  whole-string, optional-separator forms), following the shape of the pattern.
* The global regex `CO_AUTHOR_REGEX` (`gim` flags) is modelled by an
  executable replay of the engine's `exec` loop (`coAuthorMatches`): the
  `m`-flag anchors hold at the ends of the string and around line
  terminators, while `\s` and `[^>]` still match a line terminator, so a
  single match may span lines; greedy/lazy preferences are realised as a
  bounded search in the engine's backtracking order.
* JavaScript numbers are `ℚ`.  `x.toFixed(k)` followed by `Number(...)` is
  modelled as rounding to `k` decimals (`round1`, `round2`); a division whose
  result is not finite (`NaN`/`Infinity`, i.e. a zero denominator) is modelled
  by `Option ℚ` with `none` for the non-finite outcome (`jsDiv`).
* Date values (`new Date(s).getTime()`) are modelled by an arbitrary
  parse function `gt : String → ℚ` giving epoch milliseconds; the metric
  theorems quantify over it.  Date parsing itself is outside the model.
* A nullable field `x` tested by `if (x)` is modelled as `Option` tested by
  `isSome` (the timestamp strings involved are never empty).
* JavaScript `Map` objects (insertion-ordered) are association lists:
  `Map.set` updates in place or appends a fresh key at the end (`alSet`),
  matching the iteration-order semantics the source relies on.
* `Array.prototype.sort` (stable since ES2019) is `List.insertionSort`,
  which Mathlib proves stable.
-/

/-! ## Characters and strings -/

/-- JavaScript `\w`: `[A-Za-z0-9_]`. -/
def isWordChar (c : Char) : Bool := c.isAlphanum || c = '_'

/-- Lowercased character list of a string (ASCII `toLowerCase`). -/
def strLower (s : String) : List Char := s.toList.map Char.toLower

/-- Strip leading whitespace. -/
def trimLeft (l : List Char) : List Char := l.dropWhile Char.isWhitespace

/-- Strip trailing whitespace. -/
def trimRight (l : List Char) : List Char := (l.reverse.dropWhile Char.isWhitespace).reverse

/-- JavaScript `String.prototype.trim`. -/
def trimBoth (l : List Char) : List Char := trimRight (trimLeft l)

/-! ## Regex building blocks

Each helper embeds one concrete shape of pattern used by the source file.
All the literal arguments below are nonempty and start/end with word
characters where a `\b` is applied, so maximal-munch `\s*`/`[-_\s]?` reading
coincides with the backtracking regex semantics. -/

/-- The literal `pat` occurs at the head of `hay`. -/
def subAt (pat hay : List Char) : Bool := pat.isPrefixOf hay

/-- Matcher for `/pat/`: the literal occurs anywhere in the haystack. -/
def containsSub (pat : List Char) : List Char → Bool
  | [] => subAt pat []
  | c :: rest => subAt pat (c :: rest) || containsSub pat rest

/-- Scan all positions of the haystack, tracking whether the previous
character is a word character, and apply an at-position matcher at every
position that is at a `\b` word boundary (start of input or after a
non-word character). -/
def scanWB (atPos : List Char → Bool) (prevWord : Bool) : List Char → Bool
  | [] => false
  | c :: rest => (!prevWord && atPos (c :: rest)) || scanWB atPos (isWordChar c) rest

/-- Matcher for `/\bpat/` where `pat` begins with a word character. -/
def containsWB (pat hay : List Char) : Bool := scanWB (subAt pat) false hay

/-- There is a `\b` boundary before the (possibly empty) remainder. -/
def boundaryAfter : List Char → Bool
  | [] => true
  | c :: _ => !isWordChar c

/-- The literal `pat` occurs at the head and is followed by a `\b` boundary. -/
def wordAt (pat hay : List Char) : Bool := subAt pat hay && boundaryAfter (hay.drop pat.length)

/-- Matcher for `/\bpat\b/` where `pat` begins and ends with word characters. -/
def containsWord (pat hay : List Char) : Bool := scanWB (wordAt pat) false hay

/-- Pattern `a\s*b` occurs at the head (with `b` not starting with whitespace). -/
def gapAt (a b hay : List Char) : Bool :=
  subAt a hay && subAt b ((hay.drop a.length).dropWhile Char.isWhitespace)

/-- Matcher for `/a\s*b/`: two literals separated by optional whitespace, anywhere. -/
def containsGap (a b : List Char) : List Char → Bool
  | [] => gapAt a b []
  | c :: rest => gapAt a b (c :: rest) || containsGap a b rest

/-- Pattern `a\s*(alt₁|alt₂|…)` occurs at the head. -/
def gapAltAt (a : List Char) (alts : List (List Char)) (hay : List Char) : Bool :=
  subAt a hay && alts.any (fun b => subAt b ((hay.drop a.length).dropWhile Char.isWhitespace))

/-- Matcher for `/a\s*(alt₁|alt₂|…)/` anywhere. -/
def containsGapAlt (a : List Char) (alts : List (List Char)) : List Char → Bool
  | [] => gapAltAt a alts []
  | c :: rest => gapAltAt a alts (c :: rest) || containsGapAlt a alts rest

/-- Matcher for `/^pat$/` with no `m` flag: the whole string equals the literal. -/
def exactly (pat hay : List Char) : Bool := hay == pat

/-- Pattern `a[-_\s]?b\b` (or `a[-_]?b\b` when `wsSep` is false) at the head. -/
def sepWordAt (a : List Char) (wsSep : Bool) (b : List Char) (hay : List Char) : Bool :=
  subAt a hay &&
    (let t := hay.drop a.length
     wordAt b t ||
       match t with
       | c :: r => (c = '-' || c = '_' || (wsSep && c.isWhitespace)) && wordAt b r
       | [] => false)

/-- Pattern `a\s*b\b` at the head. -/
def gapWordAt (a b hay : List Char) : Bool :=
  subAt a hay && wordAt b ((hay.drop a.length).dropWhile Char.isWhitespace)

/-! ## AI detection (`src/cli/src/extractors/ai-detection.ts`) -/

/-- The `AITool` union type (`amazon-q` is spelled `amazonQ`). -/
inductive AITool where
  | copilot | claude | cursor | codeium | amazonQ | gemini | other
deriving DecidableEq, Repr

/-- One `AICoAuthor` record. -/
structure AICoAuthor where
  name : String
  email : String
  tool : AITool
deriving DecidableEq, Repr

/-- The `EXCLUDED_BOTS` table: one executable matcher per regex, in source
order.  Case-insensitivity is realised by running them on the lowercased
combined string. -/
def excludedBotMatchers : List (List Char → Bool) :=
  [ containsSub "dependabot".toList
  , containsSub "renovate".toList
  , containsSub "maven-dependency-updater".toList
  , containsSub "snyk".toList
  , containsSub "greenkeeper".toList
  , containsSub "github-actions".toList
  , containsSub "vercel[bot]".toList
  , containsSub "netlify".toList
  , containsSub "circleci".toList
  , containsSub "travis".toList
  , containsSub "registry-file-exporter".toList
  , containsSub "devex-bazel-targets-disabler".toList
  , containsSub "devex-bca".toList
  , containsSub "flynt-manager".toList
  , containsSub "babel-app".toList
  , containsSub "confidence-infra".toList
  , containsSub "uncle-bot".toList
  , containsSub "bca[bot]".toList
  , containsSub "docs-bot".toList
  , containsSub "nextjs-bot".toList
  , containsWB "infra[bot]".toList
  , containsWB "ci[bot]".toList
  , containsWB "cd[bot]".toList
  , containsWB "deploy".toList
  , containsWB "release".toList
  , containsWB "merge".toList
  , containsWB "sync".toList ]

/-- Embedding of `isExcludedBot`: the combined string `` `${name} ${email}` `` matches
some entry of `EXCLUDED_BOTS`. -/
def isExcludedBot (name email : String) : Bool :=
  let combined := strLower (name ++ " " ++ email)
  excludedBotMatchers.any (fun f => f combined)

/-- One entry of an `AI_PATTERNS` pattern list: optional email regex and
optional name regex. -/
structure AIPat where
  email : Option (List Char → Bool)
  name : Option (List Char → Bool)

/-- Pattern application, as in `identifyAITool`: a pattern with both fields
requires both to match; with one field, that one; (the table has no empty
patterns, which would never match). -/
def patMatches (p : AIPat) (nm em : List Char) : Bool :=
  match p.email, p.name with
  | some f, some g => f em && g nm
  | some f, none => f em
  | none, some g => g nm
  | none, none => false

/-- The `AI_PATTERNS` table, in source order. -/
def aiPatternTable : List (AITool × List AIPat) :=
  [ (AITool.copilot,
      [ ⟨some (containsSub "copilot@github.com".toList), none⟩
      , ⟨some (containsSub "github-copilot".toList), none⟩
      , ⟨none, some (containsGap "github".toList "copilot".toList)⟩
      , ⟨none, some (containsSub "copilot-swe-agent".toList)⟩
      , ⟨some (containsSub "copilot@users.noreply.github.com".toList), none⟩ ])
  , (AITool.claude,
      [ ⟨some (containsSub "@anthropic.com".toList), none⟩
      , ⟨some (containsSub "claude@".toList), none⟩
      , ⟨none, some (exactly "claude".toList)⟩
      , ⟨none, some (containsGapAlt "claude".toList
          ["sonnet".toList, "opus".toList, "haiku".toList])⟩
      , ⟨none, some (containsSub "anthropic".toList)⟩ ])
  , (AITool.cursor,
      [ ⟨some (fun em => containsSub "@cursor.sh".toList em ||
          containsSub "@cursor.com".toList em), none⟩
      , ⟨some (containsSub "cursor@".toList), none⟩
      , ⟨none, some (exactly "cursor".toList)⟩
      , ⟨none, some (containsGap "cursor".toList "ai".toList)⟩ ])
  , (AITool.codeium,
      [ ⟨some (containsSub "@codeium.com".toList), none⟩
      , ⟨some (containsSub "codeium@".toList), none⟩
      , ⟨none, some (exactly "codeium".toList)⟩
      , ⟨none, some (containsSub "windsurf".toList)⟩ ])
  , (AITool.amazonQ,
      [ ⟨some (containsSub "q@amazon.com".toList), none⟩
      , ⟨some (containsSub "amazon-q".toList), none⟩
      , ⟨none, some (containsGap "amazon".toList "q".toList)⟩
      , ⟨some (containsSub "@amazon.com".toList), some (exactly "q".toList)⟩ ])
  , (AITool.gemini,
      [ ⟨some (containsSub "@google.com".toList), some (containsSub "gemini".toList)⟩
      , ⟨some (containsSub "gemini@".toList), none⟩
      , ⟨none, some (exactly "gemini".toList)⟩
      , ⟨none, some (containsGap "google".toList "gemini".toList)⟩ ])
  ]

/-- The nested loop over `AI_PATTERNS`: first tool one of whose patterns
matches. -/
def findTool : List (AITool × List AIPat) → List Char → List Char → Option AITool
  | [], _, _ => none
  | (t, ps) :: rest, nm, em =>
    if ps.any (fun p => patMatches p nm em) then some t else findTool rest nm em

/-- The `genericAIPatterns` fallback table (strict generic AI markers). -/
def genericAIMatchers : List (List Char → Bool) :=
  [ fun h => scanWB (sepWordAt "ai".toList true "assistant".toList) false h
  , fun h => scanWB (sepWordAt "ai".toList true "helper".toList) false h
  , fun h => scanWB (sepWordAt "ai".toList true "coder".toList) false h
  , fun h => scanWB (gapWordAt "artificial".toList "intelligence".toList) false h
  , containsWord "llm".toList
  , containsWord "gpt".toList
  , containsWord "chatgpt".toList
  , containsWord "openai".toList
  , containsWord "codegen".toList
  , fun h => scanWB (sepWordAt "auto".toList false "code".toList) false h ]

/-- Embedding of `identifyAITool`: bot-exclusion gate, then the known-tool table, then the
generic-AI fallback, else `null`. -/
def identifyAITool (name email : String) : Option AITool :=
  if isExcludedBot name email then none
  else
    let nm := strLower name
    let em := strLower email
    match findTool aiPatternTable nm em with
    | some t => some t
    | none =>
      if genericAIMatchers.any (fun f => f nm || f em) then some AITool.other else none

/-- Embedding of `hasAIIndicators`: inline AI markers in a commit message. -/
def hasAIIndicators (commitMessage : String) : Bool :=
  let m := strLower commitMessage
  containsSub "[ai]".toList m ||
  containsSub "[ai-generated]".toList m ||
  (generatedByMatcher m) ||
  containsSub "ai-assisted".toList m
where
  /-- Head matcher for `/generated\s+by\s+(ai|copilot|claude|cursor|codeium)/i`. -/
  generatedByAt (hay : List Char) : Bool :=
    subAt "generated".toList hay &&
      (let t₁ := hay.drop 9
       match t₁ with
       | c :: _ =>
         c.isWhitespace && subAt "by".toList (t₁.dropWhile Char.isWhitespace) &&
           (let t₂ := (t₁.dropWhile Char.isWhitespace).drop 2
            match t₂ with
            | d :: _ =>
              d.isWhitespace &&
                (let t₃ := t₂.dropWhile Char.isWhitespace
                 subAt "ai".toList t₃ || subAt "copilot".toList t₃ ||
                 subAt "claude".toList t₃ || subAt "cursor".toList t₃ ||
                 subAt "codeium".toList t₃)
            | [] => false)
       | [] => false)
  generatedByMatcher : List Char → Bool
    | [] => generatedByAt []
    | c :: rest => generatedByAt (c :: rest) || generatedByMatcher rest

/-! ## Co-author extraction (`CO_AUTHOR_REGEX`, `detectAICoAuthors`)

`CO_AUTHOR_REGEX` is `/^co-authored-by:\s*(.+?)\s*<([^>]+)>\s*$/gim`, run
in an `exec` loop.  With the `m` flag, `^`/`$` anchor at the ends of the
string and around line terminators, but `\s` and `[^>]` still match a line
terminator, so one match may span several lines.  The embedding replays
the backtracking engine exactly:

* an attempt starts at a `^` position (`anchorOk`: offset zero or right
  after a line terminator) and requires the case-insensitive keyword;
* the `\s*` after the keyword is greedy: the skip count `a` is tried from
  the maximal whitespace run downwards; the lazy `(.+?)` capture length
  `n` is tried from 1 upwards, its characters being anything but a line
  terminator (`.` without the `s` flag);
* the `\s*` before `<` admits exactly the maximal whitespace run (any
  shorter run would put a whitespace character where `<` must sit), and
  the email capture `[^>]+` is forced to the nonempty run up to the next
  closing bracket;
* `\s*$` succeeds if the whitespace run after the closing bracket reaches
  the end of the string (the match ends there) or contains a line
  terminator (greediness ends the match just before the last one);
* the `g` loop takes the leftmost successful attempt at or after the end
  of the previous match and resumes from that end.

Line terminators are modelled as `'\n'` and `'\r'` (the ASCII ones). -/

/-- Character is an (ASCII) line terminator. -/
def isLT (c : Char) : Bool := c = '\n' || c = '\r'

/-- Length of the maximal whitespace run at the head. -/
def wsRun (l : List Char) : ℕ := (l.takeWhile Char.isWhitespace).length

/-- Index of the last line terminator in a run, if any. -/
def lastLTIdx (run : List Char) : Option ℕ :=
  match run.reverse.findIdx? isLT with
  | some j => some (run.length - 1 - j)
  | none => none

/-- One backtracking alternative: after the keyword, skip `a` whitespace
characters, capture `n` name characters; the pre-bracket whitespace run,
the bracket, the nonempty email up to the next closing bracket and the
`\s*$` tail are then forced.  Returns the two raw captures and the match
length measured from the keyword (`15 +` an offset into `afterKey`). -/
def tryNameSplit (afterKey : List Char) (a n : ℕ) : Option (List Char × List Char × ℕ) :=
  let name := (afterKey.drop a).take n
  let q := a + n
  let b := wsRun (afterKey.drop q)
  match (afterKey.drop (q + b)).head? with
  | some '<' =>
    let emStart := q + b + 1
    let email := (afterKey.drop emStart).takeWhile (fun c => c ≠ '>')
    if email.isEmpty then none
    else
      match (afterKey.drop (emStart + email.length)).head? with
      | some '>' =>
        let afterGt := emStart + email.length + 1
        let run := (afterKey.drop afterGt).takeWhile Char.isWhitespace
        if (afterKey.drop (afterGt + run.length)).isEmpty then
          some (name, email, 15 + afterGt + run.length)
        else
          match lastLTIdx run with
          | some k => some (name, email, 15 + afterGt + k)
          | none => none
      | _ => none
  | _ => none

/-- One match attempt at position `i`: the case-insensitive keyword, then
the alternatives in the engine's preference order — the greedy
keyword-side `\s*` from its maximum downwards, the lazy name capture from
one character upwards. -/
def attemptAt (s : List Char) (i : ℕ) : Option (List Char × List Char × ℕ) :=
  let rest := s.drop i
  if (rest.take 15).map Char.toLower = "co-authored-by:".toList then
    let afterKey := rest.drop 15
    let aMax := wsRun afterKey
    ((List.range (aMax + 1)).reverse).findSome? (fun a =>
      let nMax := ((afterKey.drop a).takeWhile (fun c => !(isLT c))).length
      (List.range nMax).findSome? (fun k => tryNameSplit afterKey a (k + 1)))
  else none

/-- Position admits the `m`-flag `^` anchor. -/
def anchorOk (s : List Char) (i : ℕ) : Bool :=
  i == 0 || isLT (s.getD (i - 1) ' ')

/-- Leftmost successful anchored attempt at or after `pos`, with the two
raw captures and the absolute end of the match. -/
def nextCoAuthorMatch (s : List Char) (pos : ℕ) :
    Option (List Char × List Char × ℕ) :=
  (List.range' pos (s.length + 1 - pos)).findSome? (fun i =>
    if anchorOk s i then
      (attemptAt s i).map (fun r => (r.1, r.2.1, i + r.2.2))
    else none)

/-- The `exec` loop: collect successive matches, resuming at each match
end.  The fuel `s.length + 1` is never exhausted: every match consumes at
least the 15 keyword characters and one name character, so at most
`s.length / 16` matches exist. -/
def coAuthorExec (s : List Char) : ℕ → ℕ → List (List Char × List Char)
  | 0, _ => []
  | fuel + 1, pos =>
    match nextCoAuthorMatch s pos with
    | none => []
    | some (nm, em, stop) => (nm, em) :: coAuthorExec s fuel stop

/-- All raw `(match[1], match[2])` capture pairs of the `exec` loop. -/
def coAuthorMatches (s : List Char) : List (List Char × List Char) :=
  coAuthorExec s (s.length + 1) 0

/-- The capture pairs after the source's post-processing:
`match[1].trim()` and `match[2].trim().toLowerCase()`. -/
def coAuthorPairs (msg : String) : List (String × String) :=
  (coAuthorMatches msg.toList).map (fun p =>
    ((trimBoth p.1).asString, ((trimBoth p.2).map Char.toLower).asString))

/-- Dedup key, as in the source: `` `${name.toLowerCase()}:${email}` ``
(the email is already lowercased). -/
def coAuthorKey (n e : String) : String :=
  (n.toList.map Char.toLower).asString ++ ":" ++ e

/-- The `while`-loop body of `detectAICoAuthors`: walk the matched
`(name, email)` pairs, skipping keys already seen, recording every key, and
keeping the classified pairs. -/
def detectLoop (seen : List String) : List (String × String) → List AICoAuthor
  | [] => []
  | (n, e) :: rest =>
    if coAuthorKey n e ∈ seen then detectLoop seen rest
    else
      match identifyAITool n e with
      | some t => ⟨n, e, t⟩ :: detectLoop (coAuthorKey n e :: seen) rest
      | none => detectLoop (coAuthorKey n e :: seen) rest

/-- Embedding of `detectAICoAuthors`. -/
def detectAICoAuthors (msg : String) : List AICoAuthor :=
  detectLoop [] (coAuthorPairs msg)


/-! ## The per-line reading of the co-author pattern

The specification describes `detectCoAuthors` as returning one co-author
per LINE of the form `Co-Authored-By: Name <email>`.  The following
definitions formalise that reading — splitting at newlines and applying
the anchored pattern to each line in isolation, with `\s` and `[^>]`
taken line-local.  The source regex is not line-local (its `\s*` and
`[^>]+` cross line terminators), so this reading is refuted below. -/

/-- Split a character list at newline characters (splitting the empty
message yields one empty line). -/
def splitOnNl : List Char → List (List Char)
  | [] => [[]]
  | c :: rest =>
    match splitOnNl rest with
    | [] => [[]]
    | h :: t => if c = '\n' then [] :: h :: t else (c :: h) :: t

/-- Specification-side single-line matcher: the pattern
`/^co-authored-by:\s*(.+?)\s*<([^>]+)>\s*$/i` applied to one line in
isolation, returning `match[1].trim()` and
`match[2].trim().toLowerCase()`.

Derivation for a single line: after the case-insensitive keyword, the
line (with trailing whitespace dropped) must end in a closing angle
bracket; the lazy `(.+?)` commits to the first opening bracket after the
last closing bracket of the remaining body (`[^>]+` cannot cross a
closing bracket and `\s*$` forces the match to end at the final one); at
least one character must precede that opening bracket (`.+?`), and the
email capture must be nonempty. -/
def parseCoAuthorLine (line : List Char) : Option (String × String) :=
  if (line.take 15).map Char.toLower = "co-authored-by:".toList then
    let rest := line.drop 15
    let R := trimRight rest
    match R.getLast? with
    | some '>' =>
      let body := R.dropLast
      let keep := (body.reverse.takeWhile (fun c => c ≠ '>')).reverse
      let pre := keep.takeWhile (fun c => c ≠ '<')
      if pre.length = keep.length then none
      else
        let i := body.length - keep.length + pre.length
        let emailPart := keep.drop (pre.length + 1)
        if 1 ≤ i ∧ emailPart ≠ [] then
          some ((trimBoth (body.take i)).asString,
                ((trimBoth emailPart).map Char.toLower).asString)
        else none
    | _ => none
  else none

/-- The per-line pairs: one capture pair per line of the required form,
in line order. -/
def lineCoAuthorPairs (msg : String) : List (String × String) :=
  (splitOnNl msg.toList).filterMap parseCoAuthorLine

/-! ## PR normalization (`src/cli/src/extractors/prs.ts`) -/

/-- Normalized PR state; the source string literals are `"open"`,
`"closed"`, `"merged"` (`open` is a Lean keyword, hence `opened`). -/
inductive PRState where
  | opened | closed | merged
deriving DecidableEq, Repr

/-- One review record. -/
structure Review where
  author : String
  state : String
  submittedAt : String
deriving DecidableEq, Repr

/-- Raw host-API PR record (`GHPullRequest`); `author` is the nullable
`author?.login` chain collapsed to its login string. -/
structure GHPullRequest where
  number : ℕ
  title : String
  state : String
  isDraft : Bool
  createdAt : String
  updatedAt : String
  mergedAt : Option String
  closedAt : Option String
  additions : ℚ
  deletions : ℚ
  changedFiles : ℚ
  labels : Option (List String)
  commits : Option ℕ
  comments : Option ℕ
  baseRefName : String
  headRefName : String
  url : String
  author : Option String
deriving Repr

/-- Normalized `PullRequest` record. -/
structure PullRequest where
  number : ℕ
  title : String
  author : String
  state : PRState
  isDraft : Bool
  createdAt : String
  updatedAt : String
  mergedAt : Option String
  closedAt : Option String
  additions : ℚ
  deletions : ℚ
  changedFiles : ℚ
  labels : List String
  reviews : List Review
  commits : ℕ
  comments : ℕ
  baseBranch : String
  headBranch : String
  url : String
deriving Repr

/-- Embedding of `transformPR`: derive `state` (merged wins, then the raw
`closed` state or a set `closedAt`, else open) and default-fill the
optional fields. -/
def transformPR (raw : GHPullRequest) (reviews : List Review) : PullRequest :=
  { number := raw.number
  , title := raw.title
  , author := raw.author.getD "unknown"
  , state :=
      if raw.mergedAt.isSome then PRState.merged
      else if raw.state = "closed" || raw.closedAt.isSome then PRState.closed
      else PRState.opened
  , isDraft := raw.isDraft
  , createdAt := raw.createdAt
  , updatedAt := raw.updatedAt
  , mergedAt := raw.mergedAt
  , closedAt := raw.closedAt
  , additions := raw.additions
  , deletions := raw.deletions
  , changedFiles := raw.changedFiles
  , labels := raw.labels.getD []
  , reviews := reviews
  , commits := raw.commits.getD 0
  , comments := raw.comments.getD 0
  , baseBranch := if raw.baseRefName = "" then "main" else raw.baseRefName
  , headBranch := raw.headRefName
  , url := raw.url }

/-! ## Numeric and date helpers (`src/cli/src/utils/date.ts`) -/

/-- Rounding to one decimal: `Number(x.toFixed(1))`. -/
def round1 (q : ℚ) : ℚ := (round (q * 10) : ℚ) / 10

/-- Rounding to two decimals: `Number(x.toFixed(2))`. -/
def round2 (q : ℚ) : ℚ := (round (q * 100) : ℚ) / 100

/-- JavaScript division with the non-finite outcomes (`NaN`, `±Infinity`,
i.e. a zero denominator) collapsed to `none`.  For a negative denominator
the result is an ordinary rational, as in JavaScript (a `-0` result prints
as `0` after `toFixed`). -/
def jsDiv (a b : ℚ) : Option ℚ := if b = 0 then none else some (a / b)

/-- Decimal rendering of a value already rounded to one decimal
(`x.toFixed(1)`); the digit-string detail is immaterial to every claim,
only the branch structure of `formatDuration` is. -/
def fmtFixed1 (q : ℚ) : String :=
  let n : ℤ := round (q * 10)
  toString (n / 10) ++ "." ++ toString ((n % 10).natAbs)

/-- Embedding of `formatDuration`. -/
def formatDuration (hours : ℚ) : String :=
  if hours < 1 then toString (round (hours * 60) : ℤ) ++ "m"
  else if hours < 24 then fmtFixed1 hours ++ "h"
  else
    let days := hours / 24
    if days < 7 then fmtFixed1 days ++ "d"
    else fmtFixed1 (days / 7) ++ "w"

/-- Embedding of `diffInHours` over the abstract date parse `gt`
(epoch milliseconds): `(end − start) / (1000·60·60)`. -/
def diffInHours (gt : String → ℚ) (start finish : String) : ℚ :=
  (gt finish - gt start) / 3600000

/-! ## Association lists: insertion-ordered JavaScript `Map` -/

/-- Lookup (`Map.get`). -/
def alGet {κ β : Type} [DecidableEq κ] (k : κ) : List (κ × β) → Option β
  | [] => none
  | (k2, v) :: rest => if k2 = k then some v else alGet k rest

/-- Update (`Map.set`): an existing key keeps its position, a fresh key is
appended, preserving insertion order. -/
def alSet {κ β : Type} [DecidableEq κ] (k : κ) (v : β) : List (κ × β) → List (κ × β)
  | [] => [(k, v)]
  | (k2, w) :: rest => if k2 = k then (k2, v) :: rest else (k2, w) :: alSet k v rest

/-! ## Metric input records (`src/cli/src/types/index.ts`) -/

/-- One normalized commit. -/
structure Commit where
  sha : String
  shortSha : String
  message : String
  author : String
  authorEmail : String
  committedAt : String
  additions : ℚ
  deletions : ℚ
  changedFiles : ℚ
  parents : List String
  isMergeCommit : Bool
  aiCoAuthors : List AICoAuthor
  isAIAssisted : Bool
deriving Repr

/-- One deployment record. -/
structure Deployment where
  id : String
  environment : String
  state : String
  createdAt : String
  updatedAt : String
  sha : String
  ref : String
  creator : String
  description : Option String
deriving Repr

/-- One release record (deployment proxy; unused by the calculator). -/
structure Release where
  id : ℕ
  tagName : String
  name : String
  createdAt : String
  publishedAt : String
  author : String
  isDraft : Bool
  isPrerelease : Bool
  targetCommitish : String
deriving Repr

/-- Date range envelope; the source field `end` is a Lean keyword and is
spelled `finish`. -/
structure DateRange where
  start : String
  finish : String
deriving DecidableEq, Repr

/-- Envelope of extracted PRs, keyed by repository name. -/
structure PRData where
  extractedAt : String
  dateRange : DateRange
  repositories : List (String × List PullRequest)

/-- Envelope of extracted commits. -/
structure CommitData where
  extractedAt : String
  dateRange : DateRange
  repositories : List (String × List Commit)

/-- Per-repository deployments and releases. -/
structure RepoDeployments where
  deployments : List Deployment
  releases : List Release

/-- Envelope of extracted deployments. -/
structure DeploymentData where
  extractedAt : String
  dateRange : DateRange
  repositories : List (String × RepoDeployments)

/-! ## Output record (`CalculatedMetrics`) -/

/-- Result of `calculateStats`. -/
structure Stats where
  average : ℚ
  median : ℚ
  p90 : ℚ
deriving DecidableEq, Repr

/-- PR size buckets. -/
structure SizeDistribution where
  xs : ℕ
  s : ℕ
  m : ℕ
  l : ℕ
  xl : ℕ
deriving DecidableEq, Repr

/-- Lead-time section. -/
structure LeadTimeStats where
  averageHours : ℚ
  medianHours : ℚ
  p90Hours : ℚ
  formatted : String
deriving DecidableEq, Repr

/-- Deployment-frequency section (`none` = non-finite number). -/
structure DeployFrequency where
  perDay : Option ℚ
  perWeek : Option ℚ
deriving DecidableEq, Repr

/-- Change-failure-rate section. -/
structure ChangeFailureRate where
  percentage : ℚ
  failed : ℕ
  total : ℕ
deriving DecidableEq, Repr

/-- DORA section. -/
structure DoraMetrics where
  leadTimeForChanges : LeadTimeStats
  deploymentFrequency : DeployFrequency
  changeFailureRate : ChangeFailureRate
deriving DecidableEq, Repr

/-- Review/merge-time section. -/
structure ReviewTimeStats where
  averageHours : ℚ
  medianHours : ℚ
  formatted : String
deriving DecidableEq, Repr

/-- Throughput counts. -/
structure Throughput where
  opened : ℕ
  merged : ℕ
  closed : ℕ
deriving DecidableEq, Repr

/-- Pull-request section. -/
structure PRMetrics where
  timeToFirstReview : ReviewTimeStats
  timeToMerge : ReviewTimeStats
  throughput : Throughput
  sizeDistribution : SizeDistribution
deriving DecidableEq, Repr

/-- Commit-frequency subsection (`none` = non-finite number). -/
structure CommitFrequency where
  perDay : Option ℚ
  perWeek : Option ℚ
deriving DecidableEq, Repr

/-- One ranked contributor (`{author, commits}`). -/
structure TopContributor where
  author : String
  commits : ℕ
deriving DecidableEq, Repr

/-- Contributors subsection. -/
structure Contributors where
  total : ℕ
  top : List TopContributor
deriving DecidableEq, Repr

/-- Commits section. -/
structure CommitMetrics where
  total : ℕ
  frequency : CommitFrequency
  contributors : Contributors
deriving DecidableEq, Repr

/-- AI summary subsection. -/
structure AISummary where
  totalAICommits : ℕ
  totalCommits : ℕ
  aiRatio : ℚ
  usersWithAI : ℕ
  totalUsers : ℕ
deriving DecidableEq, Repr

/-- Per-tool AI aggregate. -/
structure ToolCount where
  tool : AITool
  commits : ℕ
  users : ℕ
deriving DecidableEq, Repr

/-- Per-user AI aggregate. -/
structure UserAI where
  author : String
  aiCommits : ℕ
  totalCommits : ℕ
  ratio : ℚ
  primaryTool : Option AITool
deriving DecidableEq, Repr

/-- One day of the AI trend. -/
structure TrendPoint where
  date : String
  aiCommits : ℕ
  totalCommits : ℕ
  ratio : ℚ
deriving DecidableEq, Repr

/-- AI section. -/
structure AIMetrics where
  summary : AISummary
  byTool : List ToolCount
  byUser : List UserAI
  trend : List TrendPoint
deriving DecidableEq, Repr

/-- Summary section. -/
structure SummarySection where
  repositories : ℕ
  totalPRs : ℕ
  totalCommits : ℕ
  totalDeployments : ℕ
deriving DecidableEq, Repr

/-- The full metrics report. -/
structure CalculatedMetrics where
  calculatedAt : String
  dateRange : DateRange
  summary : SummarySection
  dora : DoraMetrics
  pullRequests : PRMetrics
  commits : CommitMetrics
  ai : AIMetrics
deriving DecidableEq, Repr

/-! ## Statistics primitive and size distribution (`metrics.ts`) -/

/-- Embedding of `calculateStats`.  `Math.floor(sorted.length * 0.9)`
equals `9 * n / 10` in natural division for every feasible array length:
the IEEE product `n * 0.9` differs from the rational `9n/10` by far less
than the distance to the next integer (and rounds to the integer itself
when `9n/10` is one), so the floor agrees. -/
def calculateStats (values : List ℚ) : Stats :=
  if values.length = 0 then ⟨0, 0, 0⟩
  else
    let sorted := List.insertionSort (· ≤ ·) values
    let sum := sorted.sum
    ⟨round1 (sum / sorted.length),
     round1 (sorted.getD (sorted.length / 2) 0),
     round1 (sorted.getD (9 * sorted.length / 10) 0)⟩

/-- Embedding of `calculateSizeDistribution`. -/
def calculateSizeDistribution (prs : List PullRequest) : SizeDistribution :=
  prs.foldl
    (fun d pr =>
      let size := pr.additions + pr.deletions
      if size < 10 then { d with xs := d.xs + 1 }
      else if size < 100 then { d with s := d.s + 1 }
      else if size < 500 then { d with m := d.m + 1 }
      else if size < 1000 then { d with l := d.l + 1 }
      else { d with xl := d.xl + 1 })
    ⟨0, 0, 0, 0, 0⟩

/-! ## AI metrics (`calculateAIMetrics`) -/

/-- Per-author accumulator `{ai, total, tools}`. -/
structure UserStats where
  ai : ℕ
  total : ℕ
  tools : List (AITool × ℕ)
deriving DecidableEq, Repr

/-- The `userAIStats` map: one pass over the commits, bumping
`{ai, total}` and, for AI-assisted commits, the per-tool counters. -/
def userAIStatsOf (commits : List Commit) : List (String × UserStats) :=
  commits.foldl
    (fun m c =>
      let stats := (alGet c.author m).getD ⟨0, 0, []⟩
      let stats := { stats with total := stats.total + 1 }
      let stats :=
        if c.isAIAssisted then
          { stats with
            ai := stats.ai + 1
          , tools := c.aiCoAuthors.foldl
              (fun ts ca => alSet ca.tool ((alGet ca.tool ts).getD 0 + 1) ts) stats.tools }
        else stats
      alSet c.author stats m)
    []

/-- The `primaryTool` selection loop: strictly-greater replacement starting
from `(null, 0)`. -/
def primaryToolOf (tools : List (AITool × ℕ)) : Option AITool :=
  (tools.foldl (fun (st : Option AITool × ℕ) p => if st.2 < p.2 then (some p.1, p.2) else st)
    (none, 0)).1

/-- Embedding of `calculateAIMetrics` (the `startDate`/`endDate` parameters
are unused by the source body as well). -/
def calculateAIMetrics (commits : List Commit) (startDate endDate : ℚ) : AIMetrics :=
  let _ := startDate
  let _ := endDate
  let aiCommits := commits.filter (·.isAIAssisted)
  let totalCommits := commits.length
  let totalAICommits := aiCommits.length
  let userAIStats := userAIStatsOf commits
  let usersWithAI := (userAIStats.filter (fun p => 0 < p.2.ai)).length
  let totalUsers := userAIStats.length
  let toolStats : List (AITool × (ℕ × List String)) :=
    aiCommits.foldl
      (fun m c =>
        c.aiCoAuthors.foldl
          (fun m2 ca =>
            let st := (alGet ca.tool m2).getD (0, [])
            let users := if c.author ∈ st.2 then st.2 else st.2 ++ [c.author]
            alSet ca.tool (st.1 + 1, users) m2)
          m)
      []
  let byTool :=
    List.insertionSort (fun a b : ToolCount => b.commits ≤ a.commits)
      (toolStats.map (fun p => ⟨p.1, p.2.1, p.2.2.length⟩))
  let byUser :=
    List.insertionSort (fun a b : UserAI => b.aiCommits ≤ a.aiCommits)
      ((userAIStats.map (fun p =>
          ({ author := p.1
           , aiCommits := p.2.ai
           , totalCommits := p.2.total
           , ratio := if 0 < p.2.total then round2 ((p.2.ai : ℚ) / p.2.total) else 0
           , primaryTool := primaryToolOf p.2.tools } : UserAI))).filter
        (fun u => 0 < u.aiCommits))
  let dailyStats : List (String × (ℕ × ℕ)) :=
    commits.foldl
      (fun m c =>
        let date := (c.committedAt.toList.takeWhile (fun ch => ch ≠ 'T')).asString
        let st := (alGet date m).getD (0, 0)
        alSet date ((if c.isAIAssisted then st.1 + 1 else st.1), st.2 + 1) m)
      []
  let trend :=
    List.insertionSort (fun a b : TrendPoint => a.date ≤ b.date)
      (dailyStats.map (fun p =>
        ({ date := p.1
         , aiCommits := p.2.1
         , totalCommits := p.2.2
         , ratio := if 0 < p.2.2 then round2 ((p.2.1 : ℚ) / p.2.2) else 0 } : TrendPoint)))
  { summary :=
      { totalAICommits := totalAICommits
      , totalCommits := totalCommits
      , aiRatio := if 0 < totalCommits then round2 ((totalAICommits : ℚ) / totalCommits) else 0
      , usersWithAI := usersWithAI
      , totalUsers := totalUsers }
  , byTool := byTool
  , byUser := byUser
  , trend := trend }

/-! ## The metrics calculator (`calculateAllMetrics`) -/

/-- Flattened PR collection (`Object.values(...).flat()`). -/
def flatPRs (prData : PRData) : List PullRequest :=
  prData.repositories.flatMap (fun p => p.2)

/-- Flattened commit collection. -/
def flatCommits (commitData : CommitData) : List Commit :=
  commitData.repositories.flatMap (fun p => p.2)

/-- Flattened deployment collection (`flatMap(r => r.deployments)`). -/
def flatDeployments (deploymentData : DeploymentData) : List Deployment :=
  deploymentData.repositories.flatMap (fun p => p.2.deployments)

/-- Merged PRs: `state === 'merged' && pr.mergedAt`. -/
def mergedPRsOf (prs : List PullRequest) : List PullRequest :=
  prs.filter (fun pr => pr.state == PRState.merged && pr.mergedAt.isSome)

/-- Embedding of `rangeDays`:
`Math.ceil((end − start) / (1000·60·60·24))`. -/
def rangeDays (gt : String → ℚ) (dr : DateRange) : ℤ :=
  Int.ceil ((gt dr.finish - gt dr.start) / 86400000)

/-- Time-to-first-review sample: merged PRs with at least one review,
hours from `createdAt` to the `submittedAt` of the head of the
date-ascending stable sort of the reviews, keeping strictly positive
durations (`filter((t) => t > 0)`). -/
def timeToFirstReviewList (gt : String → ℚ) (prs : List PullRequest) : List ℚ :=
  ((((mergedPRsOf prs).filter (fun pr => 0 < pr.reviews.length)).map
      (fun pr =>
        let firstReview :=
          (List.insertionSort (fun a b : Review => gt a.submittedAt ≤ gt b.submittedAt)
            pr.reviews).headD ⟨"", "", ""⟩
        diffInHours gt pr.createdAt firstReview.submittedAt)).filter
    (fun t => 0 < t))

/-- The commit-contributor counting map. -/
def authorCountsOf (commits : List Commit) : List (String × ℕ) :=
  commits.foldl (fun m c => alSet c.author ((alGet c.author m).getD 0 + 1) m) []

/-- Ranked contributors before the top-10 cut: stable descending sort by
commit count. -/
def rankedContributorsOf (commits : List Commit) : List TopContributor :=
  List.insertionSort (fun a b : TopContributor => b.commits ≤ a.commits)
    ((authorCountsOf commits).map (fun p => ⟨p.1, p.2⟩))

/-- Embedding of `calculateAllMetrics`; `gt` is the date parse and `now`
the `new Date().toISOString()` value observed at the call. -/
def calculateAllMetrics (gt : String → ℚ) (now : String) (prData : PRData)
    (commitData : CommitData) (deploymentData : DeploymentData) : CalculatedMetrics :=
  let allPRs := flatPRs prData
  let allCommits := flatCommits commitData
  let allDeployments := flatDeployments deploymentData
  let mergedPRs := mergedPRsOf allPRs
  let rd : ℚ := (rangeDays gt prData.dateRange : ℚ)
  let leadTimes := mergedPRs.map (fun pr => diffInHours gt pr.createdAt (pr.mergedAt.getD ""))
  let leadTimeStats := calculateStats leadTimes
  let timeToFirstReviewStats := calculateStats (timeToFirstReviewList gt allPRs)
  let timeToMerge := mergedPRs.map (fun pr => diffInHours gt pr.createdAt (pr.mergedAt.getD ""))
  let timeToMergeStats := calculateStats timeToMerge
  let successfulDeployments := allDeployments.filter (fun d => d.state == "success")
  let failedDeployments := allDeployments.filter (fun d => d.state == "failure" || d.state == "error")
  let sizeDistribution := calculateSizeDistribution allPRs
  let topContributors := (rankedContributorsOf allCommits).take 10
  let aiMetrics :=
    calculateAIMetrics allCommits (gt prData.dateRange.start) (gt prData.dateRange.finish)
  { calculatedAt := now
  , dateRange := prData.dateRange
  , summary :=
      { repositories := prData.repositories.length
      , totalPRs := allPRs.length
      , totalCommits := allCommits.length
      , totalDeployments := allDeployments.length }
  , dora :=
      { leadTimeForChanges :=
          { averageHours := leadTimeStats.average
          , medianHours := leadTimeStats.median
          , p90Hours := leadTimeStats.p90
          , formatted := formatDuration leadTimeStats.median }
      , deploymentFrequency :=
          { perDay := (jsDiv (successfulDeployments.length : ℚ) rd).map round2
          , perWeek := (jsDiv (successfulDeployments.length : ℚ) rd).map (fun q => round2 (q * 7)) }
      , changeFailureRate :=
          { percentage :=
              if 0 < allDeployments.length then
                round1 (((failedDeployments.length : ℚ) / allDeployments.length) * 100)
              else 0
          , failed := failedDeployments.length
          , total := allDeployments.length } }
  , pullRequests :=
      { timeToFirstReview :=
          { averageHours := timeToFirstReviewStats.average
          , medianHours := timeToFirstReviewStats.median
          , formatted := formatDuration timeToFirstReviewStats.median }
      , timeToMerge :=
          { averageHours := timeToMergeStats.average
          , medianHours := timeToMergeStats.median
          , formatted := formatDuration timeToMergeStats.median }
      , throughput :=
          { opened := allPRs.length
          , merged := mergedPRs.length
          , closed := (allPRs.filter (fun pr => pr.state == PRState.closed)).length }
      , sizeDistribution := sizeDistribution }
  , commits :=
      { total := allCommits.length
      , frequency :=
          { perDay := (jsDiv (allCommits.length : ℚ) rd).map round2
          , perWeek := (jsDiv (allCommits.length : ℚ) rd).map (fun q => round2 (q * 7)) }
      , contributors :=
          { total := (authorCountsOf allCommits).length
          , top := topContributors } }
  , ai := aiMetrics }

/-! ## Claim C1: bot exclusion takes precedence -/

/-- C1.  Any (name, email) pair whose combined "name email" string matches
an entry of the bot-exclusion table is classified as `null` by
`identifyAITool`, regardless of any AI-tool or generic-AI match. -/
theorem bot_exclusion_precedence (name email : String)
    (h : isExcludedBot name email = true) : identifyAITool name email = none := by
  simp [identifyAITool, h]

/-- Witness for C1: `release-bot[bot]` matches the `\brelease` exclusion
even though its email matches the `claude` pattern `@anthropic.com`. -/
theorem bot_exclusion_precedence_witness :
    isExcludedBot "release-bot[bot]" "claude@anthropic.com" = true ∧
      identifyAITool "release-bot[bot]" "claude@anthropic.com" = none :=
  ⟨by decide, bot_exclusion_precedence "release-bot[bot]" "claude@anthropic.com" (by decide)⟩

/-! ## Claim C2: co-author parsing and dedup -/

/-- Classification step applied to one surviving (name, email) pair. -/
def classifyPair (p : String × String) : Option AICoAuthor :=
  (identifyAITool p.1 p.2).map (fun t => ⟨p.1, p.2, t⟩)

/-- Specification-side dedup: keep each pair's first occurrence, dropping
every later pair with the same lowercase `(name, email)` key. -/
def dedupFirst : List (String × String) → List (String × String)
  | [] => []
  | p :: ps =>
    p :: dedupFirst (ps.filter (fun q => coAuthorKey q.1 q.2 ≠ coAuthorKey p.1 p.2))
termination_by l => l.length
decreasing_by
  exact Nat.lt_succ_of_le (List.length_filter_le _ _)

/-- Unfolding equation for `dedupFirst` on the empty list. -/
theorem dedupFirst_nil : dedupFirst [] = [] := by
  rw [dedupFirst]

/-- Unfolding equation for `dedupFirst` on a cons. -/
theorem dedupFirst_cons (p : String × String) (ps : List (String × String)) :
    dedupFirst (p :: ps) =
      p :: dedupFirst (ps.filter (fun q => coAuthorKey q.1 q.2 ≠ coAuthorKey p.1 p.2)) := by
  rw [dedupFirst]

/-- Claim-side pipeline, following the claim's per-LINE wording: one
capture pair per line of the required form, dedup keeping first
occurrences in order, classify, drop `null`s. -/
def claimCoAuthors (msg : String) : List AICoAuthor :=
  (dedupFirst (lineCoAuthorPairs msg)).filterMap classifyPair

/-- Source-side pipeline: the `exec`-loop matches (which may span lines),
dedup keeping first occurrences in order, classify, drop `null`s. -/
def specCoAuthors (msg : String) : List AICoAuthor :=
  (dedupFirst (coAuthorPairs msg)).filterMap classifyPair

/-- The seen-set loop of the source equals dedup-then-classify. -/
theorem detectLoop_eq (ps : List (String × String)) : ∀ seen : List String,
    detectLoop seen ps =
      (dedupFirst (ps.filter (fun p => coAuthorKey p.1 p.2 ∉ seen))).filterMap classifyPair := by
  induction ps with
  | nil => intro seen; simp [detectLoop, dedupFirst_nil]
  | cons p rest ih =>
    intro seen
    obtain ⟨n, e⟩ := p
    by_cases hk : coAuthorKey n e ∈ seen
    · have hf : (((n, e) :: rest).filter (fun p => (coAuthorKey p.1 p.2 ∉ seen : Bool))) =
          rest.filter (fun p => (coAuthorKey p.1 p.2 ∉ seen : Bool)) := by
        simp [List.filter_cons, hk]
      rw [hf]
      simp only [detectLoop, if_pos hk]
      exact ih seen
    · have hf : (((n, e) :: rest).filter (fun p => (coAuthorKey p.1 p.2 ∉ seen : Bool))) =
          (n, e) :: rest.filter (fun p => (coAuthorKey p.1 p.2 ∉ seen : Bool)) := by
        simp [List.filter_cons, hk]
      have hfilter :
          (rest.filter (fun p => (coAuthorKey p.1 p.2 ∉ seen : Bool))).filter
              (fun q => (coAuthorKey q.1 q.2 ≠ coAuthorKey n e : Bool)) =
            rest.filter (fun p => (coAuthorKey p.1 p.2 ∉ (coAuthorKey n e :: seen) : Bool)) := by
        rw [List.filter_filter]
        apply List.filter_congr
        intro q _
        by_cases h1 : coAuthorKey q.1 q.2 ∈ seen <;>
          by_cases h2 : coAuthorKey q.1 q.2 = coAuthorKey n e <;>
            simp [h1, h2]
      rw [hf, dedupFirst_cons, hfilter, List.filterMap_cons]
      simp only [detectLoop, if_neg hk]
      cases htool : identifyAITool n e with
      | none => simp [classifyPair, htool, ih (coAuthorKey n e :: seen)]
      | some t => simp [classifyPair, htool, ih (coAuthorKey n e :: seen)]

/-- Counterexample for C2.  The claim says `detectAICoAuthors` returns
one `AICoAuthor` per LINE of the required form, but the source regex's
`\s*` (after the keyword) matches the newline: on the message
whose first line is just the keyword and whose second line is
`Claude <noreply@anthropic.com>`, the source yields a Claude co-author
from a match spanning both lines, while the per-line reading yields
none (neither line matches on its own). -/
theorem coauthor_per_line_counterexample :
    detectAICoAuthors "Co-Authored-By:\nClaude <noreply@anthropic.com>" =
        [⟨"Claude", "noreply@anthropic.com", AITool.claude⟩] ∧
      claimCoAuthors "Co-Authored-By:\nClaude <noreply@anthropic.com>" = [] := by
  constructor
  · decide
  · have h : lineCoAuthorPairs "Co-Authored-By:\nClaude <noreply@anthropic.com>" = [] := by
      decide
    simp [claimCoAuthors, h, dedupFirst_nil]

/-- C2 (amended).  `detectAICoAuthors` returns one `AICoAuthor` per
`exec`-loop match of `CO_AUTHOR_REGEX` — a match may span several lines,
since `\s` and `[^>]` also match line terminators — with the name
trimmed and the email trimmed and lowercased, deduplicated by lowercase
(name, email) key keeping the first occurrence in first-seen order, and
`null`-classified pairs omitted.  A message with two identical
`Co-Authored-By: Claude <noreply@anthropic.com>` lines yields exactly
one `AICoAuthor`; a message whose first line is the bare keyword and
whose second line is a full `Co-Authored-By: Claude <...>` line yields
one co-author whose captured name is `Co-Authored-By: Claude`. -/
theorem detectAICoAuthors_spec :
    (∀ msg, detectAICoAuthors msg = specCoAuthors msg) ∧
      detectAICoAuthors
          "Co-Authored-By: Claude <noreply@anthropic.com>\nCo-Authored-By: Claude <noreply@anthropic.com>" =
        [⟨"Claude", "noreply@anthropic.com", AITool.claude⟩] ∧
      detectAICoAuthors
          "Co-Authored-By:\nCo-Authored-By: Claude <noreply@anthropic.com>" =
        [⟨"Co-Authored-By: Claude", "noreply@anthropic.com", AITool.claude⟩] := by
  refine ⟨fun msg => ?_, by decide, by decide⟩
  have h := detectLoop_eq (coAuthorPairs msg) []
  simpa [detectAICoAuthors, specCoAuthors] using h

/-! ## Claim C3: malformed input -/

/-- Counterexample for C3: the claim also asserts that any name with an
empty email classifies to `null`, but a name matching a name-only AI
pattern is classified regardless of the empty email. -/
theorem classifier_empty_email_counterexample :
    identifyAITool "Claude" "" = some AITool.claude ∧
      identifyAITool "Claude" "" ≠ none := by
  constructor
  · decide
  · decide

/-- C3 (amended).  Malformed empty input resolves to the failure value and
never throws (the embedding is total by construction): the classifier on
empty name and email returns `null`, co-author detection on the empty
message returns the empty list, and the inline-indicator test on the empty
message returns `false`. -/
theorem classifier_malformed_input_amended :
    identifyAITool "" "" = none ∧ detectAICoAuthors "" = [] ∧
      hasAIIndicators "" = false := by
  refine ⟨by decide, by decide, by decide⟩

/-! ## Claim C6: PR state derivation -/

/-- Raw PR whose host state is `closed` while both timestamps are null. -/
def rawClosedNoDates : GHPullRequest :=
  { number := 1, title := "t", state := "closed", isDraft := false
  , createdAt := "2024-01-01T00:00:00Z", updatedAt := "2024-01-01T00:00:00Z"
  , mergedAt := none, closedAt := none
  , additions := 0, deletions := 0, changedFiles := 0
  , labels := none, commits := none, comments := none
  , baseRefName := "main", headRefName := "f", url := "u", author := none }

/-- Counterexample for C6: a raw PR with `mergedAt = null`,
`closedAt = null` but raw state `"closed"` normalizes to `closed`, not to
`open` as the claim's "every other PR has state = open" requires. -/
theorem transformPR_state_counterexample :
    (transformPR rawClosedNoDates []).mergedAt = none ∧
      (transformPR rawClosedNoDates []).closedAt = none ∧
      (transformPR rawClosedNoDates []).state ≠ PRState.opened := by
  refine ⟨rfl, rfl, by decide⟩

/-- C6 (amended).  `transformPR` derives the state as: `merged` iff the
raw `mergedAt` is set (regardless of the raw `state` field); otherwise
`closed` iff the raw state string is `"closed"` or `closedAt` is set;
otherwise `open`; and it copies `mergedAt`/`closedAt` verbatim. -/
theorem transformPR_state_derivation :
    ∀ (raw : GHPullRequest) (reviews : List Review),
      ((transformPR raw reviews).state = PRState.merged ↔ raw.mergedAt.isSome = true) ∧
      ((transformPR raw reviews).state = PRState.closed ↔
        raw.mergedAt = none ∧ (raw.state = "closed" ∨ raw.closedAt.isSome = true)) ∧
      ((transformPR raw reviews).state = PRState.opened ↔
        raw.mergedAt = none ∧ raw.state ≠ "closed" ∧ raw.closedAt = none) ∧
      (transformPR raw reviews).mergedAt = raw.mergedAt ∧
      (transformPR raw reviews).closedAt = raw.closedAt := by
  intro raw reviews
  cases hm : raw.mergedAt with
  | some v => simp [transformPR, hm]
  | none =>
    by_cases hs : raw.state = "closed"
    · simp [transformPR, hm, hs]
    · cases hc : raw.closedAt with
      | some w => simp [transformPR, hm, hs, hc]
      | none => simp [transformPR, hm, hs, hc]

/-! ## Claim C9: two-run determinism -/

/-- C9.  Running the calculator twice on identical inputs with different
observed clock values produces identical reports except for the
`calculatedAt` field: overwriting the second run's `calculatedAt` with the
first run's yields exactly the first report. -/
theorem calculateAllMetrics_two_run_determinism
    (gt : String → ℚ) (now1 now2 : String) (prData : PRData)
    (commitData : CommitData) (deploymentData : DeploymentData) :
    calculateAllMetrics gt now1 prData commitData deploymentData =
      { calculateAllMetrics gt now2 prData commitData deploymentData with
          calculatedAt := now1 } := rfl

/-! ## Claim C4: the statistics primitive -/

/-- C4.  `calculateStats` on the empty sequence is all zeroes; on a
non-empty sequence, for any ascending sorted permutation `s` of the input,
the result is `average = round1(sum/n)`, `median = round1(s[n/2])` (upper
median) and `p90 = round1(s[9n/10])`; in particular the median of
`[1,2,3,4]` is `3` (not `2.5`) and of `[1,2,3,4,5]` is `3`. -/
theorem calculateStats_spec :
    calculateStats [] = ⟨0, 0, 0⟩ ∧
      (∀ (l s : List ℚ), l ≠ [] → l.Perm s → s.Sorted (· ≤ ·) →
        calculateStats l =
          ⟨round1 (l.sum / l.length), round1 (s.getD (l.length / 2) 0),
            round1 (s.getD (9 * l.length / 10) 0)⟩) ∧
      (calculateStats [1, 2, 3, 4]).median = 3 ∧
      (calculateStats [1, 2, 3, 4, 5]).median = 3 := by
  refine ⟨rfl, ?_,
    by norm_num [calculateStats, round1, List.insertionSort, List.orderedInsert],
    by norm_num [calculateStats, round1, List.insertionSort, List.orderedInsert]⟩
  intro l s hne hperm hsorted
  have hs : List.insertionSort (· ≤ ·) l = s :=
    List.eq_of_perm_of_sorted ((List.perm_insertionSort _ l).trans hperm)
      (List.sorted_insertionSort _ l) hsorted
  have hlen : l.length ≠ 0 := by simpa [List.length_eq_zero] using hne
  have hslen : s.length = l.length := hperm.length_eq.symm
  have hsum : s.sum = l.sum := hperm.symm.sum_eq
  simp only [calculateStats, if_neg hlen, hs, hslen, hsum]

/-- Witness for C4 at `[3, 1]` with sorted permutation `[1, 3]`. -/
theorem calculateStats_spec_witness : calculateStats [3, 1] = ⟨2, 3, 3⟩ := by
  have h := calculateStats_spec.2.1 [3, 1] [1, 3] (by decide)
    (by norm_num [List.Perm.swap, List.Perm.refl])
    (by norm_num [List.sorted_cons])
  rw [h]
  simp only [List.sum_cons, List.sum_nil, List.length_cons, List.length_nil,
    List.getD_cons_zero, List.getD_cons_succ]
  norm_num [round1, List.getD]

/-! ## Claim C5: time to first review -/

/-- Duration from PR creation to the head of the date-ascending stable
sort of its reviews (the source's `firstReview` computation). -/
def firstReviewDuration (gt : String → ℚ) (pr : PullRequest) : ℚ :=
  diffInHours gt pr.createdAt
    ((List.insertionSort (fun a b : Review => gt a.submittedAt ≤ gt b.submittedAt)
        pr.reviews).headD ⟨"", "", ""⟩).submittedAt

/-- Specification-side sequence from the claim's words: the same durations
but with only the negative ones discarded (zero retained). -/
def claimedFirstReviewList (gt : String → ℚ) (prs : List PullRequest) : List ℚ :=
  ((((mergedPRsOf prs).filter (fun pr => 0 < pr.reviews.length)).map
      (firstReviewDuration gt)).filter (fun t => 0 ≤ t))

/-- Degenerate date parse mapping every timestamp to epoch `0`. -/
def gtZero : String → ℚ := fun _ => 0

/-- Merged PR whose only review was submitted at its creation instant
(under `gtZero` every timestamp reads as the same instant). -/
def prReviewedAtCreation : PullRequest :=
  { number := 1, title := "t", author := "bob", state := PRState.merged
  , isDraft := false, createdAt := "2024-01-01T00:00:00Z"
  , updatedAt := "2024-01-01T00:00:00Z", mergedAt := some "2024-01-02T00:00:00Z"
  , closedAt := some "2024-01-02T00:00:00Z", additions := 1, deletions := 0
  , changedFiles := 1, labels := [], reviews := [⟨"alice", "APPROVED", "2024-01-01T00:00:00Z"⟩]
  , commits := 1, comments := 0, baseBranch := "main", headBranch := "f", url := "u" }

/-- Counterexample for C5: a zero duration (review at the creation
instant) is dropped by the source's `filter((t) => t > 0)`, while the
claim retains zero durations. -/
theorem timeToFirstReview_zero_counterexample :
    timeToFirstReviewList gtZero [prReviewedAtCreation] = [] ∧
      claimedFirstReviewList gtZero [prReviewedAtCreation] = [0] := by
  have hdur : firstReviewDuration gtZero prReviewedAtCreation = 0 := by
    norm_num [firstReviewDuration, prReviewedAtCreation, gtZero, diffInHours,
      List.insertionSort, List.orderedInsert]
  have hm : mergedPRsOf [prReviewedAtCreation] = [prReviewedAtCreation] := rfl
  have hr : (([prReviewedAtCreation] : List PullRequest).filter
      (fun pr => 0 < pr.reviews.length)) = [prReviewedAtCreation] := rfl
  constructor
  · show ((((mergedPRsOf [prReviewedAtCreation]).filter
        (fun pr => 0 < pr.reviews.length)).map
          (firstReviewDuration gtZero)).filter (fun t => 0 < t)) = []
    rw [hm, hr]
    simp only [List.map_cons, List.map_nil, hdur]
    norm_num [List.filter]
  · show ((((mergedPRsOf [prReviewedAtCreation]).filter
        (fun pr => 0 < pr.reviews.length)).map
          (firstReviewDuration gtZero)).filter (fun t => 0 ≤ t)) = [0]
    rw [hm, hr]
    simp only [List.map_cons, List.map_nil, hdur]
    norm_num [List.filter]

/-- C5 (amended).  The time-to-first-review sequence contains, for every
merged PR with at least one review, the duration in hours from creation to
the earliest review's submission, and exactly the non-positive durations
are discarded before aggregation (zero is dropped along with the
negatives; only strictly positive durations are retained). -/
theorem timeToFirstReview_spec (gt : String → ℚ) (prs : List PullRequest) :
    timeToFirstReviewList gt prs =
      ((((mergedPRsOf prs).filter (fun pr => 0 < pr.reviews.length)).map
          (firstReviewDuration gt)).filter (fun t => 0 < t)) ∧
      ∀ pr : PullRequest, pr.reviews ≠ [] →
        ∃ r ∈ pr.reviews,
          firstReviewDuration gt pr = diffInHours gt pr.createdAt r.submittedAt ∧
            ∀ q ∈ pr.reviews, gt r.submittedAt ≤ gt q.submittedAt := by
  constructor
  · rfl
  · intro pr hne
    haveI htot : IsTotal Review (fun a b : Review => gt a.submittedAt ≤ gt b.submittedAt) :=
      ⟨fun a b => le_total _ _⟩
    haveI htr : IsTrans Review (fun a b : Review => gt a.submittedAt ≤ gt b.submittedAt) :=
      ⟨fun _ _ _ h1 h2 => le_trans h1 h2⟩
    have hperm := List.perm_insertionSort
      (fun a b : Review => gt a.submittedAt ≤ gt b.submittedAt) pr.reviews
    have hsorted := List.sorted_insertionSort
      (fun a b : Review => gt a.submittedAt ≤ gt b.submittedAt) pr.reviews
    cases hsort : List.insertionSort
        (fun a b : Review => gt a.submittedAt ≤ gt b.submittedAt) pr.reviews with
    | nil =>
      rw [hsort] at hperm
      exact absurd hperm.nil_eq.symm hne
    | cons r rest =>
      refine ⟨r, ?_, ?_, ?_⟩
      · have : r ∈ pr.reviews := hperm.mem_iff.mp (by rw [hsort]; exact List.mem_cons_self _ _)
        exact this
      · simp [firstReviewDuration, hsort]
      · intro q hq
        have hq2 : q ∈ r :: rest := by
          rw [← hsort]; exact hperm.mem_iff.mpr hq
        rcases List.mem_cons.mp hq2 with h | h
        · exact le_of_eq (by rw [h])
        · rw [hsort] at hsorted
          exact List.rel_of_sorted_cons hsorted q h

/-- Witness for C5: at the concrete PR, the earliest-review
characterization holds. -/
theorem timeToFirstReview_spec_witness :
    ∃ r ∈ prReviewedAtCreation.reviews,
      firstReviewDuration gtZero prReviewedAtCreation =
          diffInHours gtZero prReviewedAtCreation.createdAt r.submittedAt ∧
        ∀ q ∈ prReviewedAtCreation.reviews,
          gtZero r.submittedAt ≤ gtZero q.submittedAt :=
  (timeToFirstReview_spec gtZero [prReviewedAtCreation]).2 prReviewedAtCreation (by decide)

/-! ## Claim C7: empty-input degradation -/

/-- Division of zero by a nonzero denominator is a finite zero. -/
theorem jsDiv_zero_of_ne (b : ℚ) (hb : b ≠ 0) : jsDiv 0 b = some 0 := by
  simp [jsDiv, hb]

/-- Counterexample for C7: with empty collections but a date range whose
`rangeDays` is zero (same start and end), `deploymentFrequency.perDay` is
`0 / 0 = NaN` (modelled `none`), not the documented zero. -/
theorem metrics_empty_nan_counterexample :
    (calculateAllMetrics gtZero "now"
        ⟨"", ⟨"2024-01-01", "2024-01-01"⟩, []⟩
        ⟨"", ⟨"2024-01-01", "2024-01-01"⟩, []⟩
        ⟨"", ⟨"2024-01-01", "2024-01-01"⟩, []⟩).dora.deploymentFrequency.perDay = none ∧
      (none : Option ℚ) ≠ some 0 := by
  have h0 : rangeDays gtZero ⟨"2024-01-01", "2024-01-01"⟩ = 0 := by
    norm_num [rangeDays, gtZero]
  constructor
  · simp only [calculateAllMetrics, h0]
    norm_num [jsDiv]
  · simp

/-- C7 (amended).  For every date range with nonzero `rangeDays`
(`Math.ceil((end − start)/day) ≠ 0`; with equal start and end the
deployment and commit frequencies are `0/0 = NaN`) and empty input
collections, the calculator yields the documented zero values — never
`NaN`/`Infinity` — in every ratio, average, median and percentage:
lead-time, review-time and merge-time statistics, deployment frequency,
change failure rate (`failed = 0`, `total = 0`), commit frequency, and the
AI ratios. -/
theorem metrics_empty_input_zeroes (gt : String → ℚ) (now : String)
    (prData : PRData) (commitData : CommitData) (deploymentData : DeploymentData)
    (hpr : flatPRs prData = []) (hc : flatCommits commitData = [])
    (hd : flatDeployments deploymentData = [])
    (hrd : rangeDays gt prData.dateRange ≠ 0) :
    (calculateAllMetrics gt now prData commitData deploymentData).dora =
        ⟨⟨0, 0, 0, formatDuration 0⟩, ⟨some 0, some 0⟩, ⟨0, 0, 0⟩⟩ ∧
      (calculateAllMetrics gt now prData commitData deploymentData).pullRequests =
        ⟨⟨0, 0, formatDuration 0⟩, ⟨0, 0, formatDuration 0⟩, ⟨0, 0, 0⟩, ⟨0, 0, 0, 0, 0⟩⟩ ∧
      (calculateAllMetrics gt now prData commitData deploymentData).commits =
        ⟨0, ⟨some 0, some 0⟩, ⟨0, []⟩⟩ ∧
      (calculateAllMetrics gt now prData commitData deploymentData).ai =
        ⟨⟨0, 0, 0, 0, 0⟩, [], [], []⟩ := by
  have hcast : ((rangeDays gt prData.dateRange : ℤ) : ℚ) ≠ 0 := Int.cast_ne_zero.mpr hrd
  have hjs : jsDiv 0 ((rangeDays gt prData.dateRange : ℤ) : ℚ) = some 0 :=
    jsDiv_zero_of_ne _ hcast
  refine ⟨?_, ?_, ?_, ?_⟩ <;>
    · simp only [calculateAllMetrics, hpr, hc, hd]
      norm_num [mergedPRsOf, timeToFirstReviewList, calculateStats,
        calculateSizeDistribution, authorCountsOf, rankedContributorsOf,
        calculateAIMetrics, userAIStatsOf, jsDiv, hcast, round1, round2,
        List.insertionSort, List.filter]

/-- Degenerate date parse for the C7 witness: one day between the strings
`"s"` and `"e"`. -/
def gtDay : String → ℚ := fun s => if s = "e" then 86400000 else 0

/-- Witness for C7 at a one-day range with empty collections. -/
theorem metrics_empty_input_zeroes_witness :
    (calculateAllMetrics gtDay "now" ⟨"", ⟨"s", "e"⟩, []⟩ ⟨"", ⟨"s", "e"⟩, []⟩
        ⟨"", ⟨"s", "e"⟩, []⟩).dora =
      ⟨⟨0, 0, 0, formatDuration 0⟩, ⟨some 0, some 0⟩, ⟨0, 0, 0⟩⟩ := by
  have hne : ("s" : String) ≠ "e" := by decide
  exact (metrics_empty_input_zeroes gtDay "now" ⟨"", ⟨"s", "e"⟩, []⟩ ⟨"", ⟨"s", "e"⟩, []⟩
    ⟨"", ⟨"s", "e"⟩, []⟩ rfl rfl rfl (by norm_num [rangeDays, gtDay, hne])).1

/-! ## Association-list fold characterization (for C8 and C10)

The contributor and per-user aggregations both fold `Map.get`/`Map.set`
over the commit list keyed by `author`.  `keyFold` is the structural form
of that fold, `newOnes` lists the fresh keys in first-appearance order,
and `applyAuthor` replays one key's updates. -/

/-- Keys of an association list, in insertion order. -/
def alKeys {β : Type} (m : List (String × β)) : List String := m.map Prod.fst

/-- Structural form of `commits.foldl (m, c) => m.set(c.author, f c (m.get c.author))`. -/
def keyFold {β : Type} (f : Commit → Option β → β) (m : List (String × β)) :
    List Commit → List (String × β)
  | [] => m
  | c :: cs => keyFold f (alSet c.author (f c (alGet c.author m)) m) cs

/-- Fresh keys contributed by the commit list, given the keys already
present, in order of first appearance. -/
def newOnes (acc : List String) : List Commit → List String
  | [] => []
  | c :: cs =>
    if c.author ∈ acc then newOnes acc cs else c.author :: newOnes (acc ++ [c.author]) cs

/-- Replay of the updates hitting one fixed key. -/
def applyAuthor {β : Type} (f : Commit → Option β → β) (a : String) (o : Option β) :
    List Commit → Option β
  | [] => o
  | c :: cs => applyAuthor f a (if c.author = a then some (f c o) else o) cs

/-- Index of the first commit by the given author. -/
def commitIdx (a : String) (cs : List Commit) : ℕ := cs.findIdx (fun c => c.author == a)

/-- Number of commits by the given author. -/
def countAuthor (a : String) (cs : List Commit) : ℕ :=
  (cs.filter (fun c => c.author == a)).length

theorem foldl_keyFold {β : Type} (f : Commit → Option β → β) :
    ∀ (cs : List Commit) (m : List (String × β)),
      cs.foldl (fun m c => alSet c.author (f c (alGet c.author m)) m) m = keyFold f m cs := by
  intro cs
  induction cs with
  | nil => intro m; rfl
  | cons c cs ih => intro m; simp only [List.foldl_cons, keyFold, ih]

theorem alSet_keys_of_mem {β : Type} (k : String) (v : β) :
    ∀ m : List (String × β), k ∈ alKeys m → alKeys (alSet k v m) = alKeys m := by
  intro m
  induction m with
  | nil => intro h; simp [alKeys] at h
  | cons p rest ih =>
    intro h
    by_cases hk : p.1 = k
    · simp [alSet, hk, alKeys]
    · have : k ∈ alKeys rest := by
        simpa [alKeys, hk, Ne.symm hk] using h
      simp [alSet, hk, alKeys]
      simpa [alKeys] using ih this

theorem alSet_keys_of_not_mem {β : Type} (k : String) (v : β) :
    ∀ m : List (String × β), k ∉ alKeys m → alKeys (alSet k v m) = alKeys m ++ [k] := by
  intro m
  induction m with
  | nil => intro _; simp [alSet, alKeys]
  | cons p rest ih =>
    intro h
    have hk : p.1 ≠ k := by
      intro he; exact h (by simp [alKeys, he])
    have hrest : k ∉ alKeys rest := fun hm => h (by simp [alKeys] at hm ⊢; exact Or.inr hm)
    simp [alSet, hk, alKeys]
    simpa [alKeys] using ih hrest

theorem alGet_alSet_self {β : Type} (k : String) (v : β) :
    ∀ m : List (String × β), alGet k (alSet k v m) = some v := by
  intro m
  induction m with
  | nil => simp [alSet, alGet]
  | cons p rest ih =>
    by_cases hk : p.1 = k
    · simp [alSet, hk, alGet]
    · simp [alSet, hk, alGet, ih]

theorem alGet_alSet_ne {β : Type} (k k2 : String) (v : β) (h : k2 ≠ k) :
    ∀ m : List (String × β), alGet k2 (alSet k v m) = alGet k2 m := by
  intro m
  induction m with
  | nil => simp [alSet, alGet, Ne.symm h]
  | cons p rest ih =>
    by_cases hk : p.1 = k
    · simp [alSet, hk, alGet, Ne.symm h, h]
    · by_cases hk2 : p.1 = k2
      · simp [alSet, hk, alGet, hk2, h]
      · simp [alSet, hk, alGet, hk2, ih]

theorem alGet_eq_none_iff {β : Type} (k : String) :
    ∀ m : List (String × β), alGet k m = none ↔ k ∉ alKeys m := by
  intro m
  induction m with
  | nil => simp [alGet, alKeys]
  | cons p rest ih =>
    by_cases hk : p.1 = k
    · simp [alGet, hk, alKeys]
    · simp only [alGet, if_neg hk, ih, alKeys, List.map_cons, List.mem_cons]
      constructor
      · intro hn h2
        rcases h2 with h2 | h2
        · exact hk h2.symm
        · exact hn h2
      · intro hn h2
        exact hn (Or.inr h2)

theorem alGet_of_mem_nodup {β : Type} (k : String) (v : β) :
    ∀ m : List (String × β), (alKeys m).Nodup → (k, v) ∈ m → alGet k m = some v := by
  intro m
  induction m with
  | nil => intro _ h; simp at h
  | cons p rest ih =>
    intro hnd hm
    have hnd2 : (alKeys rest).Nodup := (List.nodup_cons.mp hnd).2
    rcases List.mem_cons.mp hm with h | h
    · simp [← h, alGet]
    · have hk : p.1 ≠ k := by
        intro he
        have : k ∈ alKeys rest := by
          exact List.mem_map.mpr ⟨(k, v), h, rfl⟩
        exact (List.nodup_cons.mp hnd).1 (he ▸ this)
      simp [alGet, hk, ih hnd2 h]

theorem keyFold_keys {β : Type} (f : Commit → Option β → β) :
    ∀ (cs : List Commit) (m : List (String × β)),
      alKeys (keyFold f m cs) = alKeys m ++ newOnes (alKeys m) cs := by
  intro cs
  induction cs with
  | nil => intro m; simp [keyFold, newOnes]
  | cons c cs ih =>
    intro m
    by_cases hm : c.author ∈ alKeys m
    · simp only [keyFold, newOnes, if_pos hm, ih, alSet_keys_of_mem _ _ _ hm]
    · simp only [keyFold, newOnes, if_neg hm, ih, alSet_keys_of_not_mem _ _ _ hm]
      simp

theorem keyFold_lookup {β : Type} (f : Commit → Option β → β) (a : String) :
    ∀ (cs : List Commit) (m : List (String × β)),
      alGet a (keyFold f m cs) = applyAuthor f a (alGet a m) cs := by
  intro cs
  induction cs with
  | nil => intro m; rfl
  | cons c cs ih =>
    intro m
    by_cases hc : c.author = a
    · subst hc
      simp [keyFold, applyAuthor, ih, alGet_alSet_self]
    · have hg : alGet a (alSet c.author (f c (alGet c.author m)) m) = alGet a m :=
        alGet_alSet_ne _ _ _ (fun he => hc he.symm) m
      simp only [keyFold, applyAuthor, if_neg hc, ih, hg]

theorem newOnes_not_mem_acc (x : String) :
    ∀ (cs : List Commit) (acc : List String), x ∈ newOnes acc cs → x ∉ acc := by
  intro cs
  induction cs with
  | nil => intro acc h; simp [newOnes] at h
  | cons c cs ih =>
    intro acc h
    by_cases hc : c.author ∈ acc
    · exact ih acc (by simpa [newOnes, hc] using h)
    · rcases List.mem_cons.mp (by simpa [newOnes, hc] using h) with h1 | h1
      · exact h1 ▸ hc
      · intro hx
        exact ih (acc ++ [c.author]) h1 (by simp [hx])

theorem newOnes_nodup : ∀ (cs : List Commit) (acc : List String), (newOnes acc cs).Nodup := by
  intro cs
  induction cs with
  | nil => intro acc; simp [newOnes]
  | cons c cs ih =>
    intro acc
    by_cases hc : c.author ∈ acc
    · simpa [newOnes, hc] using ih acc
    · rw [newOnes, if_neg hc]
      refine List.nodup_cons.mpr ⟨?_, ih _⟩
      intro hmem
      exact newOnes_not_mem_acc _ _ _ hmem (by simp)

/-! ## Pair-sublist order helpers -/

theorem pair_sublist_of_ne_head {α : Type} {x a b : α} {t : List α}
    (hax : a ≠ x) (h : List.Sublist [a, b] (x :: t)) : List.Sublist [a, b] t := by
  cases h with
  | cons _ h => exact h
  | cons₂ _ h => exact absurd rfl hax

theorem pair_sublist_total {α : Type} {l : List α} (hnd : l.Nodup) {x y : α}
    (hx : x ∈ l) (hy : y ∈ l) (hne : x ≠ y) : List.Sublist [x, y] l ∨ List.Sublist [y, x] l := by
  induction l with
  | nil => simp at hx
  | cons e t ih =>
    rcases List.mem_cons.mp hx with hx1 | hx1
    · subst hx1
      have hy2 : y ∈ t := by
        rcases List.mem_cons.mp hy with h | h
        · exact absurd h.symm hne
        · exact h
      exact Or.inl ((List.singleton_sublist.mpr hy2).cons₂ x)
    · rcases List.mem_cons.mp hy with hy1 | hy1
      · subst hy1
        exact Or.inr ((List.singleton_sublist.mpr hx1).cons₂ y)
      · rcases ih (List.nodup_cons.mp hnd).2 hx1 hy1 with h | h
        · exact Or.inl (h.cons e)
        · exact Or.inr (h.cons e)

theorem pair_sublist_antisym {α : Type} {l : List α} (hnd : l.Nodup) {x y : α}
    (h1 : List.Sublist [x, y] l) (h2 : List.Sublist [y, x] l) : x = y := by
  induction l with
  | nil => simp at h1
  | cons e t ih =>
    have hent : e ∉ t := (List.nodup_cons.mp hnd).1
    have hndt : t.Nodup := (List.nodup_cons.mp hnd).2
    cases h1 with
    | cons _ h1t =>
      cases h2 with
      | cons _ h2t => exact ih hndt h1t h2t
      | cons₂ _ h2t =>
        exact absurd (h1t.subset (by simp)) hent
    | cons₂ _ h1t =>
      cases h2 with
      | cons _ h2t =>
        exact absurd (h2t.subset (by simp)) hent
      | cons₂ _ h2t => rfl

/-! ## First-appearance order of fresh keys -/

theorem newOnes_order (a b : String) (hne : a ≠ b) :
    ∀ (cs : List Commit) (acc : List String), a ∉ acc → b ∉ acc →
      a ∈ newOnes acc cs → b ∈ newOnes acc cs →
      (List.Sublist [a, b] (newOnes acc cs) ↔ commitIdx a cs < commitIdx b cs) := by
  intro cs
  induction cs with
  | nil => intro acc _ _ ha _; simp [newOnes] at ha
  | cons c cs ih =>
    intro acc hana hbna ha hb
    by_cases hc : c.author ∈ acc
    · have hca : c.author ≠ a := fun he => hana (he ▸ hc)
      have hcb : c.author ≠ b := fun he => hbna (he ▸ hc)
      simp only [newOnes, if_pos hc] at ha hb ⊢
      rw [ih acc hana hbna ha hb]
      have e1 : (c.author == a) = false := beq_eq_false_iff_ne.mpr hca
      have e2 : (c.author == b) = false := beq_eq_false_iff_ne.mpr hcb
      simp only [commitIdx, List.findIdx_cons, e1, e2, Bool.cond_false]
      omega
    · by_cases hca : c.author = a
      · subst hca
        simp only [newOnes, if_neg hc] at ha hb ⊢
        have hbtail : b ∈ newOnes (acc ++ [c.author]) cs := by
          rcases List.mem_cons.mp hb with h | h
          · exact absurd h.symm hne
          · exact h
        refine iff_of_true ((List.singleton_sublist.mpr hbtail).cons₂ _) ?_
        have e2 : (c.author == b) = false := beq_eq_false_iff_ne.mpr hne
        simp [commitIdx, List.findIdx_cons, e2]
      · by_cases hcb : c.author = b
        · subst hcb
          simp only [newOnes, if_neg hc] at ha hb ⊢
          refine iff_of_false ?_ ?_
          · intro hsub
            have hsub2 : List.Sublist [a, c.author] (newOnes (acc ++ [c.author]) cs) :=
              pair_sublist_of_ne_head hne hsub
            have hmem : c.author ∈ newOnes (acc ++ [c.author]) cs :=
              hsub2.subset (by simp)
            exact newOnes_not_mem_acc _ _ _ hmem (by simp)
          · have e1 : (c.author == a) = false := beq_eq_false_iff_ne.mpr hca
            simp [commitIdx, List.findIdx_cons, e1]
        · simp only [newOnes, if_neg hc] at ha hb ⊢
          have hatail : a ∈ newOnes (acc ++ [c.author]) cs := by
            rcases List.mem_cons.mp ha with h | h
            · exact absurd h.symm hca
            · exact h
          have hbtail : b ∈ newOnes (acc ++ [c.author]) cs := by
            rcases List.mem_cons.mp hb with h | h
            · exact absurd h.symm hcb
            · exact h
          have hana2 : a ∉ acc ++ [c.author] := by
            simp only [List.mem_append, List.mem_singleton]
            rintro (h | h)
            · exact hana h
            · exact hca h.symm
          have hbna2 : b ∉ acc ++ [c.author] := by
            simp only [List.mem_append, List.mem_singleton]
            rintro (h | h)
            · exact hbna h
            · exact hcb h.symm
          have hiff : (List.Sublist [a, b] (c.author :: newOnes (acc ++ [c.author]) cs)) ↔
              (List.Sublist [a, b] (newOnes (acc ++ [c.author]) cs)) :=
            ⟨pair_sublist_of_ne_head (fun h => hca h.symm), fun h => h.cons _⟩
          rw [hiff, ih (acc ++ [c.author]) hana2 hbna2 hatail hbtail]
          have e1 : (c.author == a) = false := beq_eq_false_iff_ne.mpr hca
          have e2 : (c.author == b) = false := beq_eq_false_iff_ne.mpr hcb
          simp only [commitIdx, List.findIdx_cons, e1, e2, Bool.cond_false]
          omega

/-! ## Commit counts -/

theorem keyFold_keys_nodup {β : Type} (f : Commit → Option β → β) (cs : List Commit) :
    (alKeys (keyFold f ([] : List (String × β)) cs)).Nodup := by
  rw [keyFold_keys]
  simpa [alKeys] using newOnes_nodup cs []

theorem applyCount (a : String) : ∀ (cs : List Commit) (o : Option ℕ),
    (applyAuthor (fun _ o => o.getD 0 + 1) a o cs).getD 0 = o.getD 0 + countAuthor a cs := by
  intro cs
  induction cs with
  | nil => intro o; simp [applyAuthor, countAuthor]
  | cons c cs ih =>
    intro o
    by_cases hc : c.author = a
    · simp only [applyAuthor, if_pos hc, ih, countAuthor, List.filter_cons, hc]
      simp [countAuthor]
      omega
    · simp only [applyAuthor, if_neg hc, ih, countAuthor, List.filter_cons]
      simp [hc, countAuthor]

theorem authorCountsOf_keyFold (cs : List Commit) :
    authorCountsOf cs = keyFold (fun _ o => o.getD 0 + 1) [] cs := by
  have h := foldl_keyFold (fun _ o => o.getD 0 + 1) cs []
  exact h

theorem authorCounts_value (cs : List Commit) (p : String × ℕ)
    (hp : p ∈ authorCountsOf cs) : p.2 = countAuthor p.1 cs := by
  rw [authorCountsOf_keyFold] at hp
  have hnd := keyFold_keys_nodup (fun _ o => o.getD 0 + 1) cs
  have hget := alGet_of_mem_nodup p.1 p.2 _ hnd hp
  rw [keyFold_lookup] at hget
  have := applyCount p.1 cs (alGet p.1 [])
  rw [hget] at this
  simpa [alGet] using this

/-! ## Claim C8: commit contributor ranking -/

/-- The grouped `{author, commits}` entries, in Map iteration order. -/
def contribEntries (cs : List Commit) : List TopContributor :=
  (authorCountsOf cs).map (fun p => ⟨p.1, p.2⟩)

theorem contribEntries_authors (cs : List Commit) :
    (contribEntries cs).map (fun t => t.author) = alKeys (authorCountsOf cs) := by
  simp only [contribEntries, List.map_map]
  rfl

theorem authorCounts_keys_newOnes (cs : List Commit) :
    alKeys (authorCountsOf cs) = newOnes [] cs := by
  rw [authorCountsOf_keyFold, keyFold_keys]
  simp [alKeys]

theorem contribEntries_nodup (cs : List Commit) : (contribEntries cs).Nodup := by
  have hkeysnd : (alKeys (authorCountsOf cs)).Nodup := by
    rw [authorCountsOf_keyFold]
    exact keyFold_keys_nodup _ cs
  exact List.Nodup.of_map _ (contribEntries_authors cs ▸ hkeysnd)

/-- Tie order in the ranked list follows first appearance: a pair of
equal-count entries ordered in the stable descending sort is ordered by
first-commit index. -/
theorem ranked_pair_idx (cs : List Commit) (x y : TopContributor)
    (hcount : x.commits = y.commits) (hne : x ≠ y)
    (hsubr : List.Sublist [x, y] (rankedContributorsOf cs)) :
    commitIdx x.author cs < commitIdx y.author cs := by
  have hperm : (rankedContributorsOf cs).Perm (contribEntries cs) :=
    List.perm_insertionSort _ _
  have hentnd := contribEntries_nodup cs
  have hranknd : (rankedContributorsOf cs).Nodup := (hperm.nodup_iff).mpr hentnd
  have hauthne : x.author ≠ y.author := by
    intro he
    apply hne
    cases x with
    | mk xa xc =>
      cases y with
      | mk ya yc =>
        simp only at he hcount
        rw [he, hcount]
  have hxE : x ∈ contribEntries cs := hperm.mem_iff.mp (hsubr.subset (by simp))
  have hyE : y ∈ contribEntries cs := hperm.mem_iff.mp (hsubr.subset (by simp))
  have hpair : List.Sublist [x, y] (contribEntries cs) := by
    rcases pair_sublist_total hentnd hxE hyE hne with h | h
    · exact h
    · have h2 : List.Sublist [y, x] (rankedContributorsOf cs) :=
        List.pair_sublist_insertionSort (le_of_eq hcount) h
      exact absurd (pair_sublist_antisym hranknd hsubr h2) hne
  have hmap : List.Sublist [x.author, y.author] (newOnes [] cs) := by
    have hm := hpair.map (fun t : TopContributor => t.author)
    rw [contribEntries_authors, authorCounts_keys_newOnes] at hm
    exact hm
  have hxm : x.author ∈ newOnes [] cs := hmap.subset (by simp)
  have hym : y.author ∈ newOnes [] cs := hmap.subset (by simp)
  exact (newOnes_order x.author y.author hauthne cs [] (by simp) (by simp) hxm hym).mp hmap

/-- C8.  The contributor ranking groups commits by author (the grouped map
holds, for each author, the number of their commits, keyed in
first-appearance order), sorts the entries descending by commit count with
a stable sort, and takes the first 10; for two entries with equal counts,
their order in the output is exactly the order of the authors' first
appearance in the input commit list. -/
theorem contributor_ranking_spec :
    (∀ (gt : String → ℚ) (now : String) (prData : PRData) (commitData : CommitData)
        (deploymentData : DeploymentData),
      (calculateAllMetrics gt now prData commitData deploymentData).commits.contributors.top =
        (rankedContributorsOf (flatCommits commitData)).take 10) ∧
    (∀ cs : List Commit, (rankedContributorsOf cs).Perm (contribEntries cs)) ∧
    (∀ cs : List Commit,
      (rankedContributorsOf cs).Sorted (fun x y : TopContributor => y.commits ≤ x.commits)) ∧
    (∀ (cs : List Commit) (p : String × ℕ), p ∈ authorCountsOf cs → p.2 = countAuthor p.1 cs) ∧
    (∀ (cs : List Commit) (x y : TopContributor), x.commits = y.commits → x ≠ y →
      x ∈ (rankedContributorsOf cs).take 10 → y ∈ (rankedContributorsOf cs).take 10 →
      (List.Sublist [x, y] ((rankedContributorsOf cs).take 10) ↔
        commitIdx x.author cs < commitIdx y.author cs)) := by
  refine ⟨fun _ _ _ _ _ => rfl, fun cs => List.perm_insertionSort _ _, ?_, authorCounts_value, ?_⟩
  · intro cs
    haveI : IsTotal TopContributor (fun a b => b.commits ≤ a.commits) :=
      ⟨fun a b => le_total b.commits a.commits⟩
    haveI : IsTrans TopContributor (fun a b => b.commits ≤ a.commits) :=
      ⟨fun _ _ _ h1 h2 => le_trans h2 h1⟩
    exact List.sorted_insertionSort _ _
  · intro cs x y hcount hne hx hy
    have hperm : (rankedContributorsOf cs).Perm (contribEntries cs) :=
      List.perm_insertionSort _ _
    have hranknd : (rankedContributorsOf cs).Nodup :=
      (hperm.nodup_iff).mpr (contribEntries_nodup cs)
    have htknd : ((rankedContributorsOf cs).take 10).Nodup :=
      List.Nodup.sublist (List.take_sublist _ _) hranknd
    constructor
    · intro hsub
      exact ranked_pair_idx cs x y hcount hne (hsub.trans (List.take_sublist _ _))
    · intro hidx
      rcases pair_sublist_total htknd hx hy hne with h | h
      · exact h
      · have := ranked_pair_idx cs y x hcount.symm (Ne.symm hne)
          (h.trans (List.take_sublist _ _))
        omega

/-! ## Primary-tool selection analysis (for C10) -/

/-- Maximum tool count of a tool map. -/
def maxCount (tools : List (AITool × ℕ)) : ℕ := tools.foldr (fun p m => max p.2 m) 0

theorem le_maxCount : ∀ (tools : List (AITool × ℕ)), ∀ p ∈ tools, p.2 ≤ maxCount tools := by
  intro tools
  induction tools with
  | nil => intro p hp; simp at hp
  | cons q rest ih =>
    intro p hp
    rcases List.mem_cons.mp hp with h | h
    · simp [maxCount, h]
    · exact le_trans (ih p h) (by simp [maxCount])

theorem foldl_prim_keep :
    ∀ (l : List (AITool × ℕ)) (o : Option AITool) (m : ℕ), (∀ q ∈ l, q.2 ≤ m) →
      l.foldl (fun st p => if st.2 < p.2 then (some p.1, p.2) else st) (o, m) = (o, m) := by
  intro l
  induction l with
  | nil => intro o m _; rfl
  | cons q rest ih =>
    intro o m h
    have hq : ¬ m < q.2 := not_lt.mpr (h q (by simp))
    simp only [List.foldl_cons, if_neg hq]
    exact ih o m (fun r hr => h r (by simp [hr]))

theorem foldl_prim_below :
    ∀ (l : List (AITool × ℕ)) (o : Option AITool) (m : ℕ), m < maxCount l →
      ∃ l₁ q l₂, l = l₁ ++ q :: l₂ ∧
        l.foldl (fun st p => if st.2 < p.2 then (some p.1, p.2) else st) (o, m) =
          (some q.1, q.2) ∧
        q.2 = maxCount l ∧ ∀ p ∈ l₁, p.2 < maxCount l := by
  intro l
  induction l with
  | nil => intro o m hm; simp [maxCount] at hm
  | cons p rest ih =>
    intro o m hm
    by_cases hp : maxCount rest ≤ p.2
    · have hmax : maxCount (p :: rest) = p.2 := by
        simp [maxCount]
        exact hp
      have hm2 : m < p.2 := hmax ▸ hm
      refine ⟨[], p, rest, rfl, ?_, hmax.symm, by simp⟩
      simp only [List.foldl_cons, if_pos hm2]
      exact foldl_prim_keep rest (some p.1) p.2
        (fun q hq => le_trans (le_maxCount rest q hq) hp)
    · have hlt : p.2 < maxCount rest := not_le.mp hp
      have hmax : maxCount (p :: rest) = maxCount rest := by
        simp [maxCount]
        exact le_of_lt hlt
      by_cases hmp : m < p.2
      · obtain ⟨l₁, q, l₂, heq, hfold, hqmax, hsmall⟩ := ih (some p.1) p.2 hlt
        refine ⟨p :: l₁, q, l₂, by simp [heq], ?_, ?_, ?_⟩
        · simp only [List.foldl_cons, if_pos hmp]
          exact hfold
        · rw [hqmax, hmax]
        · intro r hr
          rcases List.mem_cons.mp hr with h | h
          · rw [h, hmax]; exact hlt
          · rw [hmax]; exact hsmall r h
      · have hm3 : m < maxCount rest := hmax ▸ hm
        obtain ⟨l₁, q, l₂, heq, hfold, hqmax, hsmall⟩ := ih o m hm3
        refine ⟨p :: l₁, q, l₂, by simp [heq], ?_, ?_, ?_⟩
        · simp only [List.foldl_cons, if_neg hmp]
          exact hfold
        · rw [hqmax, hmax]
        · intro r hr
          rcases List.mem_cons.mp hr with h | h
          · rw [h, hmax]; exact hlt
          · rw [hmax]; exact hsmall r h

/-- With every count positive, the loop selects the first entry attaining
the maximum count: all entries are `≤` it and all earlier entries are
strictly below it. -/
theorem primaryTool_first_max (tools : List (AITool × ℕ))
    (hpos : ∀ p ∈ tools, 1 ≤ p.2) (hne : tools ≠ []) :
    ∃ l₁ q l₂, tools = l₁ ++ q :: l₂ ∧ primaryToolOf tools = some q.1 ∧
      (∀ p ∈ tools, p.2 ≤ q.2) ∧ ∀ p ∈ l₁, p.2 < q.2 := by
  have h0 : 0 < maxCount tools := by
    cases tools with
    | nil => exact absurd rfl hne
    | cons p rest =>
      have h1 : 1 ≤ p.2 := hpos p (by simp)
      exact lt_of_lt_of_le h1 (le_maxCount _ p (by simp))
  obtain ⟨l₁, q, l₂, heq, hfold, hqmax, hsmall⟩ := foldl_prim_below tools none 0 h0
  refine ⟨l₁, q, l₂, heq, ?_, ?_, ?_⟩
  · rw [primaryToolOf, hfold]
  · intro p hp
    rw [hqmax]
    exact le_maxCount tools p hp
  · intro p hp
    rw [hqmax]
    exact hsmall p hp

/-- With every count positive, the loop yields `null` exactly on the
empty tool map. -/
theorem primaryTool_none_iff (tools : List (AITool × ℕ))
    (hpos : ∀ p ∈ tools, 1 ≤ p.2) : primaryToolOf tools = none ↔ tools = [] := by
  constructor
  · intro h
    by_contra hne
    obtain ⟨_, q, _, _, hsome, _, _⟩ := primaryTool_first_max tools hpos hne
    rw [h] at hsome
    cases hsome
  · rintro rfl
    rfl

/-! ## Per-user tool-map invariants (for C10) -/

/-- The loop body of `userAIStats`: bump `{ai, total}` and, on AI-assisted
commits, the per-tool counters. -/
def userStep (c : Commit) (o : Option UserStats) : UserStats :=
  let stats := o.getD ⟨0, 0, []⟩
  let stats := { stats with total := stats.total + 1 }
  if c.isAIAssisted then
    { stats with
      ai := stats.ai + 1
    , tools := c.aiCoAuthors.foldl
        (fun ts ca => alSet ca.tool ((alGet ca.tool ts).getD 0 + 1) ts) stats.tools }
  else stats

theorem userAIStatsOf_keyFold (cs : List Commit) :
    userAIStatsOf cs = keyFold userStep [] cs := by
  have h := foldl_keyFold userStep cs []
  exact h

theorem alSet_ne_nil {κ β : Type} [DecidableEq κ] (k : κ) (v : β) :
    ∀ m : List (κ × β), alSet k v m ≠ [] := by
  intro m
  cases m with
  | nil => simp [alSet]
  | cons p rest =>
    by_cases h : p.1 = k <;> simp [alSet, h]

theorem alSet_mem {κ β : Type} [DecidableEq κ] (k : κ) (v : β) :
    ∀ (m : List (κ × β)) (p : κ × β), p ∈ alSet k v m → p ∈ m ∨ p.2 = v := by
  intro m
  induction m with
  | nil => intro p hp; simp [alSet] at hp; simp [hp]
  | cons q rest ih =>
    intro p hp
    by_cases h : q.1 = k
    · rcases List.mem_cons.mp (by simpa [alSet, h] using hp) with h1 | h1
      · exact Or.inr (by rw [h1])
      · exact Or.inl (List.mem_cons_of_mem _ h1)
    · rcases List.mem_cons.mp (by simpa [alSet, h] using hp) with h1 | h1
      · exact Or.inl (h1 ▸ List.mem_cons_self _ _)
      · rcases ih p h1 with h2 | h2
        · exact Or.inl (List.mem_cons_of_mem _ h2)
        · exact Or.inr h2

theorem foldl_bump_eq_nil :
    ∀ (l : List AICoAuthor) (ts : List (AITool × ℕ)),
      l.foldl (fun ts ca => alSet ca.tool ((alGet ca.tool ts).getD 0 + 1) ts) ts = [] ↔
        ts = [] ∧ l = [] := by
  intro l
  induction l with
  | nil => intro ts; simp
  | cons ca l ih =>
    intro ts
    simp only [List.foldl_cons, ih]
    constructor
    · rintro ⟨h1, _⟩
      exact absurd h1 (alSet_ne_nil _ _ _)
    · rintro ⟨_, h2⟩
      exact absurd h2 (List.cons_ne_nil _ _)

theorem foldl_bump_pos :
    ∀ (l : List AICoAuthor) (ts : List (AITool × ℕ)), (∀ p ∈ ts, 1 ≤ p.2) →
      ∀ p ∈ l.foldl (fun ts ca => alSet ca.tool ((alGet ca.tool ts).getD 0 + 1) ts) ts,
        1 ≤ p.2 := by
  intro l
  induction l with
  | nil => intro ts h; exact h
  | cons ca l ih =>
    intro ts h
    refine ih _ ?_
    intro p hp
    rcases alSet_mem _ _ _ _ hp with h1 | h1
    · exact h p h1
    · omega

theorem userStep_tools (c : Commit) (o : Option UserStats) :
    (userStep c o).tools = [] ↔
      (o.getD ⟨0, 0, []⟩).tools = [] ∧ (c.isAIAssisted = true → c.aiCoAuthors = []) := by
  by_cases hai : c.isAIAssisted
  · simp [userStep, hai, foldl_bump_eq_nil]
  · simp [userStep, hai]

theorem userStep_tools_pos (c : Commit) (o : Option UserStats)
    (h : ∀ p ∈ (o.getD ⟨0, 0, []⟩).tools, 1 ≤ p.2) :
    ∀ p ∈ (userStep c o).tools, 1 ≤ p.2 := by
  by_cases hai : c.isAIAssisted
  · simp only [userStep, hai, if_true]
    exact foldl_bump_pos _ _ h
  · simpa [userStep, hai] using h

theorem applyAuthor_userStep_pos (a : String) :
    ∀ (cs : List Commit) (o : Option UserStats),
      (∀ s0, o = some s0 → ∀ p ∈ s0.tools, 1 ≤ p.2) →
      ∀ s, applyAuthor userStep a o cs = some s → ∀ p ∈ s.tools, 1 ≤ p.2 := by
  intro cs
  induction cs with
  | nil =>
    intro o ho s hs
    exact ho s hs
  | cons c cs ih =>
    intro o ho s hs
    by_cases hc : c.author = a
    · simp only [applyAuthor, if_pos hc] at hs
      refine ih (some (userStep c o)) ?_ s hs
      rintro s0 h0
      have hbase : ∀ p ∈ (o.getD ⟨0, 0, []⟩).tools, 1 ≤ p.2 := by
        cases o with
        | none => simp
        | some s1 => simpa using ho s1 rfl
      cases h0
      exact userStep_tools_pos c o hbase
    · simp only [applyAuthor, if_neg hc] at hs
      exact ih o ho s hs

theorem applyAuthor_userStep_empty (a : String) :
    ∀ (cs : List Commit) (o : Option UserStats) (s : UserStats),
      applyAuthor userStep a o cs = some s →
      (s.tools = [] ↔
        (o.getD ⟨0, 0, []⟩).tools = [] ∧
          ∀ c ∈ cs, c.author = a → c.isAIAssisted = true → c.aiCoAuthors = []) := by
  intro cs
  induction cs with
  | nil =>
    intro o s hs
    rw [show o = some s from hs]
    simp
  | cons c cs ih =>
    intro o s hs
    by_cases hc : c.author = a
    · simp only [applyAuthor, if_pos hc] at hs
      rw [ih (some (userStep c o)) s hs]
      simp only [Option.getD_some, userStep_tools, List.forall_mem_cons, hc]
      tauto
    · simp only [applyAuthor, if_neg hc] at hs
      rw [ih o s hs]
      simp only [List.forall_mem_cons, hc]
      tauto

/-! ## Claim C10: the ai.byUser section -/

theorem byUser_mem (commits : List Commit) (startDate endDate : ℚ) (u : UserAI)
    (hu : u ∈ (calculateAIMetrics commits startDate endDate).byUser) :
    ∃ s : UserStats, alGet u.author (userAIStatsOf commits) = some s ∧
      u.aiCommits = s.ai ∧ u.primaryTool = primaryToolOf s.tools ∧ 1 ≤ s.ai := by
  simp only [calculateAIMetrics] at hu
  rw [List.mem_insertionSort, List.mem_filter] at hu
  obtain ⟨hmem, hpos⟩ := hu
  rw [List.mem_map] at hmem
  obtain ⟨p, hp, hbuild⟩ := hmem
  have hnd : (alKeys (userAIStatsOf commits)).Nodup := by
    rw [userAIStatsOf_keyFold]
    exact keyFold_keys_nodup _ _
  have hmemp : (p.1, p.2) ∈ userAIStatsOf commits := by simpa using hp
  have hg := alGet_of_mem_nodup p.1 p.2 _ hnd hmemp
  have hau : u.author = p.1 := by rw [← hbuild]
  have hac : u.aiCommits = p.2.ai := by rw [← hbuild]
  have hpt : u.primaryTool = primaryToolOf p.2.tools := by rw [← hbuild]
  have h1 : 0 < u.aiCommits := by simpa using hpos
  exact ⟨p.2, hau ▸ hg, hac, hpt, by omega⟩

/-- C10.  Every entry of `ai.byUser` has `aiCommits ≥ 1`; its
`primaryTool` is computed from that author's per-tool map by
strictly-greater replacement, so whenever the map is nonempty the chosen
tool is the first entry attaining the maximum count (every entry counts
`≤` it, all earlier entries strictly less); and `primaryTool` is `null`
exactly when none of the author's AI-assisted commits carries an AI
co-author record. -/
theorem ai_byUser_spec (commits : List Commit) (startDate endDate : ℚ) (u : UserAI)
    (hu : u ∈ (calculateAIMetrics commits startDate endDate).byUser) :
    1 ≤ u.aiCommits ∧
      ∃ s : UserStats, alGet u.author (userAIStatsOf commits) = some s ∧
        u.primaryTool = primaryToolOf s.tools ∧
        (s.tools ≠ [] →
          ∃ l₁ q l₂, s.tools = l₁ ++ q :: l₂ ∧ u.primaryTool = some q.1 ∧
            (∀ p ∈ s.tools, p.2 ≤ q.2) ∧ ∀ p ∈ l₁, p.2 < q.2) ∧
        (u.primaryTool = none ↔
          ∀ c ∈ commits, c.author = u.author → c.isAIAssisted = true →
            c.aiCoAuthors = []) := by
  obtain ⟨s, hget, hai, hprim, hposai⟩ := byUser_mem commits startDate endDate u hu
  have happ : applyAuthor userStep u.author none commits = some s := by
    have hlk := keyFold_lookup userStep u.author commits []
    rw [← userAIStatsOf_keyFold] at hlk
    simp only [alGet] at hlk
    rw [hlk] at hget
    exact hget
  have hpos : ∀ p ∈ s.tools, 1 ≤ p.2 :=
    applyAuthor_userStep_pos u.author commits none (by rintro s0 h; cases h) s happ
  have hempty := applyAuthor_userStep_empty u.author commits none s happ
  refine ⟨by omega, s, hget, hprim, ?_, ?_⟩
  · intro hne
    obtain ⟨l₁, q, l₂, heq, hsome, hle, hlt⟩ := primaryTool_first_max s.tools hpos hne
    exact ⟨l₁, q, l₂, heq, by rw [hprim]; exact hsome, hle, hlt⟩
  · rw [hprim, primaryTool_none_iff s.tools hpos, hempty]
    simp

/-- AI-assisted commit by `bob` with a Claude co-author tag. -/
def commitAI : Commit :=
  { sha := "abc1234def", shortSha := "abc1234", message := "feat"
  , author := "bob", authorEmail := "bob@x.com"
  , committedAt := "2024-01-02T10:00:00Z", additions := 5, deletions := 1
  , changedFiles := 1, parents := ["p1"], isMergeCommit := false
  , aiCoAuthors := [⟨"Claude", "noreply@anthropic.com", AITool.claude⟩]
  , isAIAssisted := true }

/-- Witness for C10: the single-entry `byUser` of one AI commit. -/
theorem ai_byUser_spec_witness :
    1 ≤ (⟨"bob", 1, 1, 1, some AITool.claude⟩ : UserAI).aiCommits ∧
      ∃ s : UserStats,
        alGet (⟨"bob", 1, 1, 1, some AITool.claude⟩ : UserAI).author
            (userAIStatsOf [commitAI]) = some s ∧
          (⟨"bob", 1, 1, 1, some AITool.claude⟩ : UserAI).primaryTool =
              primaryToolOf s.tools ∧
            (s.tools ≠ [] →
              ∃ l₁ q l₂, s.tools = l₁ ++ q :: l₂ ∧
                (⟨"bob", 1, 1, 1, some AITool.claude⟩ : UserAI).primaryTool = some q.1 ∧
                  (∀ p ∈ s.tools, p.2 ≤ q.2) ∧ ∀ p ∈ l₁, p.2 < q.2) ∧
            ((⟨"bob", 1, 1, 1, some AITool.claude⟩ : UserAI).primaryTool = none ↔
              ∀ c ∈ [commitAI], c.author = (⟨"bob", 1, 1, 1,
                some AITool.claude⟩ : UserAI).author → c.isAIAssisted = true →
                c.aiCoAuthors = []) := by
  refine ai_byUser_spec [commitAI] 0 0 ⟨"bob", 1, 1, 1, some AITool.claude⟩ ?_
  norm_num [calculateAIMetrics, userAIStatsOf, commitAI, alSet, alGet, primaryToolOf,
    round2, List.insertionSort, List.orderedInsert, List.foldl, List.filter]

/-- Plain commit by `alice`. -/
def commitByAlice : Commit :=
  { sha := "a111111", shortSha := "a111111", message := "one"
  , author := "alice", authorEmail := "alice@x.com"
  , committedAt := "2024-01-01T09:00:00Z", additions := 1, deletions := 0
  , changedFiles := 1, parents := [], isMergeCommit := false
  , aiCoAuthors := [], isAIAssisted := false }

/-- Plain commit by `bob`. -/
def commitByBob : Commit :=
  { sha := "b222222", shortSha := "b222222", message := "two"
  , author := "bob", authorEmail := "bob@x.com"
  , committedAt := "2024-01-01T10:00:00Z", additions := 2, deletions := 0
  , changedFiles := 1, parents := [], isMergeCommit := false
  , aiCoAuthors := [], isAIAssisted := false }

/-- Witness for C8: with two authors tied at one commit each, the ranking
keeps first-appearance order (`alice` before `bob`). -/
theorem contributor_ranking_spec_witness :
    List.Sublist [(⟨"alice", 1⟩ : TopContributor), ⟨"bob", 1⟩]
      ((rankedContributorsOf [commitByAlice, commitByBob]).take 10) := by
  have h := contributor_ranking_spec.2.2.2.2 [commitByAlice, commitByBob]
    ⟨"alice", 1⟩ ⟨"bob", 1⟩ rfl (by decide) (by decide) (by decide)
  exact h.mpr (by decide)
